import Mathlib

/-!
Verification of the limit-order-book core in `src/main.rs` (Rust-HFT).

The Rust code is shallowly embedded:
  * Rust `HashMap<u64, T>` becomes an association list `List (Nat × T)` with
    `mapGet` / `mapInsert` / `mapErase` (Rust keys are unique; `mapInsert`
    replaces in place, `mapErase` removes the key).
  * `u64` arithmetic is `Nat` with explicit wrap-around modulo `2 ^ 64`
    (`add64`, `mul64`, `sub64`), matching Rust release-mode semantics.
  * Code paths that would panic (a failed `unwrap`) return `none`.
  * `add_order` is translated line by line from the source.  The bodies of
    `drain_limit` and `execute_buy_order` exist in the source only as
    pseudocode comments, and `cancel_order` does not exist there at all;
    those are modelled from the specification and carry a
    "Modelled from the spec:" doc comment.
-/

namespace RustHFT

/-! ## Association-list model of `HashMap<u64, T>` -/

def mapGet {α : Type} (m : List (Nat × α)) (k : Nat) : Option α :=
  match m with
  | [] => none
  | e :: rest => if e.1 = k then some e.2 else mapGet rest k

def mapInsert {α : Type} (m : List (Nat × α)) (k : Nat) (v : α) : List (Nat × α) :=
  match m with
  | [] => [(k, v)]
  | e :: rest => if e.1 = k then (k, v) :: rest else e :: mapInsert rest k v

def mapErase {α : Type} (m : List (Nat × α)) (k : Nat) : List (Nat × α) :=
  m.filter (fun e => !(e.1 == k))

/-! ## u64 arithmetic with wrap-around -/

def W64 : Nat := 2 ^ 64

def add64 (a b : Nat) : Nat := (a + b) % W64

def mul64 (a b : Nat) : Nat := (a * b) % W64

def sub64 (a b : Nat) : Nat := (a + (W64 - b % W64)) % W64

/-! ## Data model (structs `Order`, `Limit`, `OrderBook` from src/main.rs) -/

structure Order where
  order_id : Nat
  is_buy : Bool
  shares : Nat
  limit : Nat
  next_order : Option Nat
  prev_order : Option Nat
  parent_limit : Option Nat
deriving DecidableEq, Repr

structure Limit where
  limit_price : Nat
  size : Nat
  total_vol : Nat
  parent : Nat
  order_count : Nat
  left_child : Option Nat
  right_child : Option Nat
  head_order : Option Nat
  tail_order : Option Nat
deriving DecidableEq, Repr

structure OrderBook where
  orders_ownership_map : List (Nat × Order)
  limits_ownership_map : List (Nat × Limit)
  limits_lookup_map : List (Nat × Nat)
  buy_tree_root : Option Nat
  sell_tree_root : Option Nat
deriving DecidableEq, Repr

/-- Translation of `fn add_order(ob: &mut OrderBook, mut order: Order)`
(src/main.rs lines 37-71).  When the limit price is absent from
`limits_lookup_map` the source calls the undefined zero-argument function
`add_to_tree()` (which receives neither the book nor the order and so cannot
store anything) and returns, leaving every field of the book untouched; this
is modelled as returning the book unchanged.  A failing `unwrap` (a Rust
panic) is modelled as `none`. -/
def add_order (ob : OrderBook) (order : Order) : Option OrderBook :=
  let oid := order.order_id
  match mapGet ob.limits_lookup_map order.limit with
  | none => some ob
  | some limit_id =>
    match mapGet ob.limits_ownership_map limit_id with
    | none => none
    | some limit =>
      let order1 : Order :=
        { order with
            parent_limit := some limit_id
            next_order := limit.head_order
            prev_order := none }
      match limit.head_order with
      | some hid =>
        match mapGet ob.orders_ownership_map hid with
        | none => none
        | some ho =>
          let orders1 :=
            mapInsert ob.orders_ownership_map hid { ho with prev_order := some oid }
          let limit1 : Limit :=
            { limit with
                head_order := some oid
                order_count := add64 limit.order_count 1
                size := add64 limit.size order1.shares
                total_vol := add64 limit.total_vol (mul64 order1.shares limit.limit_price) }
          some { ob with
                   orders_ownership_map := mapInsert orders1 oid order1
                   limits_ownership_map := mapInsert ob.limits_ownership_map limit_id limit1 }
      | none =>
        let limit1 : Limit :=
          { limit with
              tail_order := some oid
              head_order := some oid
              order_count := add64 limit.order_count 1
              size := add64 limit.size order1.shares
              total_vol := add64 limit.total_vol (mul64 order1.shares limit.limit_price) }
        some { ob with
                 orders_ownership_map := mapInsert ob.orders_ownership_map oid order1
                 limits_ownership_map := mapInsert ob.limits_ownership_map limit_id limit1 }

/-- Modelled from the spec: the body of `drain_limit` exists in src/main.rs
only as pseudocode comments (lines 73-86); spec section 4.4 step 2 is its
completed description.  One loop iteration: consume from the oldest resting
order.  In the code's queue the oldest order is at `tail_order` (the header
comment of src/main.rs says "push to head, pop from the tail"), which the
spec calls the head of the FIFO queue.  The Rust signature
`(u64, &mut Limit) -> (u64, bool)` cannot touch the order arena, so the
model threads the arena explicitly.  `fuel` bounds the loop; the wrapper
`drain_limit` passes `order_count`, which equals the queue length on a
well-formed level.  Returns (arena, level, shares left, fills), each fill
being (resting order id, executed quantity). -/
def drain_go (orders : List (Nat × Order)) (lim : Limit) (s : Nat) :
    Nat → List (Nat × Order) × Limit × Nat × List (Nat × Nat)
  | 0 => (orders, lim, s, [])
  | fuel + 1 =>
    if s = 0 then (orders, lim, s, [])
    else
      match lim.tail_order with
      | none => (orders, lim, s, [])
      | some tid =>
        match mapGet orders tid with
        | none => (orders, lim, s, [])
        | some o =>
          if s < o.shares then
            (mapInsert orders tid { o with shares := o.shares - s },
             { lim with
                 size := sub64 lim.size s
                 total_vol := sub64 lim.total_vol (mul64 s lim.limit_price) },
             0, [(tid, s)])
          else
            let orders1 := mapErase orders tid
            let orders2 :=
              match o.prev_order with
              | none => orders1
              | some p =>
                match mapGet orders1 p with
                | none => orders1
                | some po => mapInsert orders1 p { po with next_order := none }
            let lim1 : Limit :=
              { lim with
                  tail_order := o.prev_order
                  head_order := if o.prev_order = none then none else lim.head_order
                  order_count := sub64 lim.order_count 1
                  size := sub64 lim.size o.shares
                  total_vol := sub64 lim.total_vol (mul64 o.shares lim.limit_price) }
            let r := drain_go orders2 lim1 (s - o.shares) fuel
            (r.1, r.2.1, r.2.2.1, (tid, o.shares) :: r.2.2.2)

/-- Modelled from the spec: wrapper for one level drain (spec section 4.4
steps 2-4); the Boolean is the "signal delete" flag of the source's
pseudocode comment (line 84): the level's queue is now empty and the caller
must delete the level. -/
def drain_limit (orders : List (Nat × Order)) (lim : Limit) (s : Nat) :
    List (Nat × Order) × Limit × Nat × Bool × List (Nat × Nat) :=
  let r := drain_go orders lim s lim.order_count
  (r.1, r.2.1, r.2.2.1, r.2.1.head_order == none, r.2.2.2)

/-- Modelled from the spec: `cancel_order` is absent from src/main.rs; spec
section 4.3 describes it.  `none` models both `OrderNotFound` and a panic on
a corrupted book.  The order is spliced out of its level's queue via its own
`prev_order`/`next_order`, the level's aggregates are decremented, and a
level whose queue becomes empty is removed from the level arena and the
lookup map. -/
def cancel_order (ob : OrderBook) (oid : Nat) : Option OrderBook :=
  match mapGet ob.orders_ownership_map oid with
  | none => none
  | some o =>
    match o.parent_limit with
    | none => none
    | some lid =>
      match mapGet ob.limits_ownership_map lid with
      | none => none
      | some lim =>
        let orders1 := mapErase ob.orders_ownership_map oid
        let step2 : Option (List (Nat × Order) × Option Nat) :=
          match o.prev_order with
          | none => some (orders1, o.next_order)
          | some p =>
            match mapGet orders1 p with
            | none => none
            | some po => some (mapInsert orders1 p { po with next_order := o.next_order }, lim.head_order)
        match step2 with
        | none => none
        | some (orders2, newHead) =>
          let step3 : Option (List (Nat × Order) × Option Nat) :=
            match o.next_order with
            | none => some (orders2, o.prev_order)
            | some n =>
              match mapGet orders2 n with
              | none => none
              | some no => some (mapInsert orders2 n { no with prev_order := o.prev_order }, lim.tail_order)
          match step3 with
          | none => none
          | some (orders3, newTail) =>
            if newHead = none then
              some { ob with
                       orders_ownership_map := orders3
                       limits_ownership_map := mapErase ob.limits_ownership_map lid
                       limits_lookup_map := mapErase ob.limits_lookup_map lim.limit_price }
            else
              let lim1 : Limit :=
                { lim with
                    head_order := newHead
                    tail_order := newTail
                    order_count := sub64 lim.order_count 1
                    size := sub64 lim.size o.shares
                    total_vol := sub64 lim.total_vol (mul64 o.shares lim.limit_price) }
              some { ob with
                       orders_ownership_map := orders3
                       limits_ownership_map := mapInsert ob.limits_ownership_map lid lim1 }

/-- Sequential submission of a batch of orders through `add_order`. -/
def submitAll (ob : OrderBook) (os : List Order) : Option OrderBook :=
  match os with
  | [] => some ob
  | o :: rest =>
    match add_order ob o with
    | none => none
    | some ob1 => submitAll ob1 rest

/-- Modelled from the spec: one matching pass against a single level, as the
caller `execute_buy_order` (pseudocode comments, src/main.rs lines 88-97)
would apply it — drain the level, then either store the updated level back
or, on the delete signal, remove the emptied level from the level arena and
the lookup map. -/
def apply_drain (ob : OrderBook) (lid : Nat) (s : Nat) : Option OrderBook :=
  match mapGet ob.limits_ownership_map lid with
  | none => none
  | some lim =>
    let r := drain_limit ob.orders_ownership_map lim s
    if r.2.2.2.1 then
      some { ob with
               orders_ownership_map := r.1
               limits_ownership_map := mapErase ob.limits_ownership_map lid
               limits_lookup_map := mapErase ob.limits_lookup_map lim.limit_price }
    else
      some { ob with
               orders_ownership_map := r.1
               limits_ownership_map := mapInsert ob.limits_ownership_map lid r.2.1 }

/-! ## Well-formedness of the pointer-threaded FIFO queues

A level's queue is the doubly linked list of order ids threaded through
`next_order`/`prev_order`, rooted at the level's `head_order`/`tail_order`.
`chainSeg orders p h l endp` states that, starting from a node whose
predecessor pointer should be `p` and which the pointer `h` designates, the
ids `l` form a correctly linked segment whose final `next_order` is `endp`.
-/

def chainSeg (orders : List (Nat × Order)) :
    Option Nat → Option Nat → List Nat → Option Nat → Bool
  | _, h, [], endp => h == endp
  | p, h, i :: rest, endp =>
    h == some i &&
      (match mapGet orders i with
       | none => false
       | some o => (o.prev_order == p) && chainSeg orders (some i) o.next_order rest endp)

def nodupB : List Nat → Bool
  | [] => true
  | x :: xs => !(xs.contains x) && nodupB xs

/-- Structural well-formedness of one level's queue: the ids `l`, listed from
`head_order` to `tail_order`, are correctly doubly linked, have no
duplicates, and `order_count` equals the queue length. -/
def wfQueue (orders : List (Nat × Order)) (lim : Limit) (l : List Nat) : Bool :=
  chainSeg orders none lim.head_order l none &&
  (lim.tail_order == l.getLast?) &&
  nodupB l &&
  (lim.order_count == l.length)

def sharesOf (orders : List (Nat × Order)) (i : Nat) : Nat :=
  match mapGet orders i with
  | none => 0
  | some o => o.shares

def sumShares (orders : List (Nat × Order)) (l : List Nat) : Nat :=
  (l.map (sharesOf orders)).sum

/-- Aggregate consistency of one level, as the spec states it: `size` is the
exact sum of the queued orders' shares, `total_vol` is exactly
`limit_price * size`, and the stored u64 aggregates are in range. -/
def aggOk (orders : List (Nat × Order)) (lim : Limit) (l : List Nat) : Bool :=
  (lim.size == sumShares orders l) &&
  (lim.total_vol == lim.limit_price * lim.size) &&
  decide (lim.size < W64) && decide (lim.total_vol < W64) &&
  decide (lim.order_count < W64)

def disjointB (l1 l2 : List Nat) : Bool := l1.all (fun x => !(l2.contains x))

def pairwiseDisj : List (List Nat) → Bool
  | [] => true
  | l :: ls => ls.all (disjointB l) && pairwiseDisj ls

def keysNodup {α : Type} (m : List (Nat × α)) : Bool := nodupB (m.map Prod.fst)

/-- One lookup-map entry `(price, level id)` is structurally sound: the level
exists, is keyed by its own price, and its queue (given by `ql`) is well
formed. -/
def levelOkS (ob : OrderBook) (ql : Nat → List Nat) (e : Nat × Nat) : Bool :=
  match mapGet ob.limits_ownership_map e.2 with
  | none => false
  | some lim => (lim.limit_price == e.1) && wfQueue ob.orders_ownership_map lim (ql e.2)

/-- One lookup-map entry's level additionally satisfies the aggregate
consistency. -/
def levelOkA (ob : OrderBook) (ql : Nat → List Nat) (e : Nat × Nat) : Bool :=
  match mapGet ob.limits_ownership_map e.2 with
  | none => false
  | some lim => aggOk ob.orders_ownership_map lim (ql e.2)

/-- Structural well-formedness of the whole book, relative to an assignment
`ql` of queue id-lists to level ids: lookup keys are unique, every
registered level is sound, and the queues of distinct registered levels are
disjoint. -/
def bookWfS (ob : OrderBook) (ql : Nat → List Nat) : Bool :=
  keysNodup ob.limits_lookup_map &&
  ob.limits_lookup_map.all (levelOkS ob ql) &&
  pairwiseDisj (ob.limits_lookup_map.map (fun e => ql e.2))

/-- Full well-formedness: structure plus aggregate consistency of every
registered level. -/
def bookWfA (ob : OrderBook) (ql : Nat → List Nat) : Bool :=
  bookWfS ob ql && ob.limits_lookup_map.all (levelOkA ob ql)

/-- The pointer a chain segment starts with: the first id of `l`, or `endp`
when `l` is empty. -/
def hdPtr (l : List Nat) (endp : Option Nat) : Option Nat :=
  match l with
  | [] => endp
  | i :: _ => some i

/-- The pointer a chain segment ends with: the last id of `l`, or `p` when
`l` is empty. -/
def lastPtr (p : Option Nat) (l : List Nat) : Option Nat :=
  match l.getLast? with
  | none => p
  | some x => some x

/-- The queue assignment after submitting a batch: every submitted order whose
limit price is registered (mapped to level `x` by the lookup map) is pushed,
in submission order, onto the head of level `x`'s queue. -/
def qlSubmit (lk : List (Nat × Nat)) (ql : Nat → List Nat) (os : List Order) :
    Nat → List Nat :=
  fun x =>
    ((os.filter (fun o => mapGet lk o.limit == some x)).map Order.order_id).reverse ++ ql x

/-! ## Concrete books used by the counterexamples and witnesses -/

/-- A one-level book: buy order 1 (5 shares) resting at price 100. -/
def demoOrd : Order :=
  { order_id := 1, is_buy := true, shares := 5, limit := 100,
    next_order := none, prev_order := none, parent_limit := some 1 }

def demoLim : Limit :=
  { limit_price := 100, size := 5, total_vol := 500, parent := 0, order_count := 1,
    left_child := none, right_child := none, head_order := some 1, tail_order := some 1 }

def demoBook : OrderBook :=
  { orders_ownership_map := [(1, demoOrd)],
    limits_ownership_map := [(1, demoLim)],
    limits_lookup_map := [(100, 1)],
    buy_tree_root := none, sell_tree_root := none }

/-- The queue assignment that makes `demoBook` well formed: level 1 holds
the single order 1. -/
def demoQl : Nat → List Nat := fun x => if x = 1 then [1] else []

/-- A fresh buy order (id 2, 3 shares) at `demoBook`'s registered price. -/
def demoNew : Order :=
  { order_id := 2, is_buy := true, shares := 3, limit := 100,
    next_order := none, prev_order := none, parent_limit := none }

/-- The queue assignment that makes `ovBook` well formed. -/
def ovQl : Nat → List Nat := fun x => if x = 1 then [1] else []

/-- A consistent one-level book at price `2 ^ 32` holding one 1-share order;
adding `ovNew` (`2 ^ 32` shares) makes `shares * price` reach `2 ^ 64`. -/
def ovOrd : Order :=
  { order_id := 1, is_buy := true, shares := 1, limit := 4294967296,
    next_order := none, prev_order := none, parent_limit := some 1 }

def ovLim : Limit :=
  { limit_price := 4294967296, size := 1, total_vol := 4294967296, parent := 0,
    order_count := 1, left_child := none, right_child := none,
    head_order := some 1, tail_order := some 1 }

def ovBook : OrderBook :=
  { orders_ownership_map := [(1, ovOrd)],
    limits_ownership_map := [(1, ovLim)],
    limits_lookup_map := [(4294967296, 1)],
    buy_tree_root := none, sell_tree_root := none }

def ovNew : Order :=
  { order_id := 2, is_buy := true, shares := 4294967296, limit := 4294967296,
    next_order := none, prev_order := none, parent_limit := none }

/-- Extracts (head_order, tail_order) of a level from an optional book. -/
def levelEnds (r : Option OrderBook) (lid : Nat) : Option (Option Nat × Option Nat) :=
  r.bind (fun b => (mapGet b.limits_ownership_map lid).map
    (fun lm => (lm.head_order, lm.tail_order)))

/-! ## Basic lemmas: association lists -/

theorem mapGet_insert_self {α : Type} (m : List (Nat × α)) (k : Nat) (v : α) :
    mapGet (mapInsert m k v) k = some v := by
  induction m with
  | nil => simp [mapGet, mapInsert]
  | cons e rest ih =>
    by_cases h : e.1 = k
    · simp [mapInsert, h, mapGet]
    · simp [mapInsert, h, mapGet, ih]

theorem mapGet_insert_ne {α : Type} (m : List (Nat × α)) (k j : Nat) (v : α)
    (h : j ≠ k) : mapGet (mapInsert m k v) j = mapGet m j := by
  induction m with
  | nil => simp [mapGet, mapInsert, Ne.symm h]
  | cons e rest ih =>
    by_cases he : e.1 = k
    · have hej : e.1 ≠ j := fun hh => h (hh ▸ he ▸ rfl)
      simp [mapInsert, he, mapGet, Ne.symm h, he ▸ hej]
    · by_cases hej : e.1 = j
      · simp [mapInsert, he, mapGet, hej, h]
      · simp [mapInsert, he, mapGet, hej, ih]

theorem mapErase_cons {α : Type} (e : Nat × α) (rest : List (Nat × α)) (k : Nat) :
    mapErase (e :: rest) k =
      if e.1 = k then mapErase rest k else e :: mapErase rest k := by
  by_cases he : e.1 = k <;> simp [mapErase, List.filter_cons, he]

theorem mapGet_erase {α : Type} (m : List (Nat × α)) (k j : Nat) :
    mapGet (mapErase m k) j = if j = k then none else mapGet m j := by
  induction m with
  | nil => simp [mapGet, mapErase]
  | cons e rest ih =>
    rw [mapErase_cons]
    by_cases he : e.1 = k
    · rw [if_pos he, ih]
      by_cases hj : j = k
      · simp [hj]
      · have hej : e.1 ≠ j := fun hh => hj (hh ▸ he ▸ rfl)
        simp [hj, mapGet, hej]
    · rw [if_neg he]
      by_cases hej : e.1 = j
      · have hj : j ≠ k := fun hh => he (hej.symm ▸ hh)
        simp [mapGet, hej, hj]
      · simp [mapGet, hej, ih]

theorem mapInsert_insert {α : Type} (m : List (Nat × α)) (k : Nat) (v w : α) :
    mapInsert (mapInsert m k v) k w = mapInsert m k w := by
  induction m with
  | nil => simp [mapInsert]
  | cons e rest ih =>
    by_cases he : e.1 = k
    · simp [mapInsert, he]
    · simp [mapInsert, he, ih]

theorem mapInsert_get_self {α : Type} (m : List (Nat × α)) (k : Nat) (v : α)
    (h : mapGet m k = some v) : mapInsert m k v = m := by
  induction m with
  | nil => simp [mapGet] at h
  | cons e rest ih =>
    by_cases he : e.1 = k
    · simp [mapGet, he] at h
      obtain ⟨e1, e2⟩ := e
      simp at he
      simp [mapInsert, he, ← h]
    · simp [mapGet, he] at h
      simp [mapInsert, he, ih h]

theorem mapErase_insert_fresh {α : Type} (m : List (Nat × α)) (k : Nat) (v : α)
    (h : mapGet m k = none) : mapErase (mapInsert m k v) k = m := by
  induction m with
  | nil => simp [mapInsert, mapErase, List.filter]
  | cons e rest ih =>
    by_cases he : e.1 = k
    · simp [mapGet, he] at h
    · simp only [mapGet, he, if_false] at h
      simp only [mapInsert, he, if_false]
      rw [mapErase_cons, if_neg he, ih h]

theorem mapGet_mem {α : Type} {m : List (Nat × α)} {k : Nat} {v : α}
    (h : mapGet m k = some v) : (k, v) ∈ m := by
  induction m with
  | nil => simp [mapGet] at h
  | cons e rest ih =>
    by_cases he : e.1 = k
    · simp only [mapGet, if_pos he] at h
      obtain ⟨e1, e2⟩ := e
      simp only [Option.some.injEq] at h
      simp only at he
      subst he
      subst h
      exact List.mem_cons_self _ _
    · simp [mapGet, he] at h
      exact List.mem_cons_of_mem _ (ih h)

/-! ## Basic lemmas: wrap-around u64 arithmetic -/

theorem W64_eq : W64 = 18446744073709551616 := by norm_num [W64]

theorem W64_pos : 0 < W64 := by rw [W64_eq]; omega

theorem add64_eq {a b : Nat} (h : a + b < W64) : add64 a b = a + b :=
  Nat.mod_eq_of_lt h

theorem mul64_eq {a b : Nat} (h : a * b < W64) : mul64 a b = a * b :=
  Nat.mod_eq_of_lt h

theorem sub64_eq {a b : Nat} (hb : b ≤ a) (ha : a < W64) : sub64 a b = a - b := by
  unfold sub64
  rw [W64_eq] at *
  omega

theorem sub64_add64 {a : Nat} (b : Nat) (ha : a < W64) : sub64 (add64 a b) b = a := by
  unfold sub64 add64
  rw [W64_eq] at *
  omega

/-! ## Lemmas about queue chains -/

theorem chainSeg_nil_iff (m : List (Nat × Order)) (p h endp : Option Nat) :
    chainSeg m p h [] endp = true ↔ h = endp := by
  simp [chainSeg]

theorem chainSeg_cons_iff (m : List (Nat × Order)) (p h : Option Nat) (i : Nat)
    (rest : List Nat) (endp : Option Nat) :
    chainSeg m p h (i :: rest) endp = true ↔
      h = some i ∧ ∃ o, mapGet m i = some o ∧ o.prev_order = p ∧
        chainSeg m (some i) o.next_order rest endp = true := by
  cases hg : mapGet m i with
  | none => simp [chainSeg, hg]
  | some o => simp [chainSeg, hg, and_assoc]

theorem chainSeg_frame {m m2 : List (Nat × Order)} {l : List Nat}
    (hf : ∀ i ∈ l, mapGet m2 i = mapGet m i) :
    ∀ {p h endp : Option Nat}, chainSeg m p h l endp = true →
      chainSeg m2 p h l endp = true := by
  induction l with
  | nil =>
    intro p h endp hc
    simpa [chainSeg_nil_iff] using hc
  | cons i rest ih =>
    intro p h endp hc
    rw [chainSeg_cons_iff] at hc ⊢
    obtain ⟨hh, o, hg, hp, hrest⟩ := hc
    refine ⟨hh, o, ?_, hp, ih (fun j hj => hf j (by simp [hj])) hrest⟩
    rw [hf i (by simp)]
    exact hg

theorem chainSeg_mem_get {m : List (Nat × Order)} {l : List Nat} {i : Nat}
    (hi : i ∈ l) :
    ∀ {p h endp : Option Nat}, chainSeg m p h l endp = true →
      ∃ o, mapGet m i = some o := by
  induction l with
  | nil => simp at hi
  | cons j rest ih =>
    intro p h endp hc
    rw [chainSeg_cons_iff] at hc
    obtain ⟨hh, o, hg, hp, hrest⟩ := hc
    rcases List.mem_cons.mp hi with h1 | h1
    · exact ⟨o, h1 ▸ hg⟩
    · exact ih h1 hrest

theorem lastPtr_cons (p : Option Nat) (i : Nat) (l : List Nat) :
    lastPtr p (i :: l) = lastPtr (some i) l := by
  cases l with
  | nil => simp [lastPtr]
  | cons j t =>
    cases hg : (j :: t).getLast? with
    | none => simp at hg
    | some x => simp [lastPtr, hg]

theorem chainSeg_append (m : List (Nat × Order)) (l1 l2 : List Nat) :
    ∀ p h endp, chainSeg m p h (l1 ++ l2) endp = true ↔
      (chainSeg m p h l1 (hdPtr l2 endp) = true ∧
       chainSeg m (lastPtr p l1) (hdPtr l2 endp) l2 endp = true) := by
  induction l1 with
  | nil =>
    intro p h endp
    have hl : lastPtr p ([] : List Nat) = p := by simp [lastPtr]
    rw [List.nil_append, hl]
    cases l2 with
    | nil => simp [chainSeg_nil_iff, hdPtr]
    | cons j t =>
      rw [chainSeg_cons_iff, chainSeg_cons_iff]
      simp only [hdPtr, chainSeg_nil_iff]
      tauto
  | cons i t ih =>
    intro p h endp
    rw [List.cons_append, chainSeg_cons_iff, chainSeg_cons_iff, lastPtr_cons]
    constructor
    · rintro ⟨hh, o, hg, hp, hc⟩
      rw [ih] at hc
      exact ⟨⟨hh, o, hg, hp, hc.1⟩, hc.2⟩
    · rintro ⟨⟨hh, o, hg, hp, hc1⟩, hc2⟩
      exact ⟨hh, o, hg, hp, (ih _ _ _).mpr ⟨hc1, hc2⟩⟩

/-! ## Lemmas about nodup and share sums -/

theorem nodupB_eq (l : List Nat) : nodupB l = true ↔ l.Nodup := by
  induction l with
  | nil => simp [nodupB]
  | cons x xs ih =>
    simp [nodupB, List.nodup_cons, ih]

theorem sumShares_congr {m m2 : List (Nat × Order)} {l : List Nat}
    (h : ∀ i ∈ l, sharesOf m2 i = sharesOf m i) : sumShares m2 l = sumShares m l := by
  unfold sumShares
  rw [List.map_congr_left h]

theorem sumShares_append (m : List (Nat × Order)) (l1 l2 : List Nat) :
    sumShares m (l1 ++ l2) = sumShares m l1 + sumShares m l2 := by
  simp [sumShares]

theorem sharesOf_le_sum {m : List (Nat × Order)} {l : List Nat} {i : Nat}
    (hi : i ∈ l) : sharesOf m i ≤ sumShares m l :=
  List.single_le_sum (fun x _ => Nat.zero_le x) _ (List.mem_map_of_mem _ hi)

theorem sharesOf_eq {m : List (Nat × Order)} {i : Nat} {o : Order}
    (h : mapGet m i = some o) : sharesOf m i = o.shares := by
  simp [sharesOf, h]

theorem add64_lt (a b : Nat) : add64 a b < W64 := Nat.mod_lt _ W64_pos

/-! ## Unfolding views of the Boolean well-formedness predicates -/

theorem wfQueue_iff (orders : List (Nat × Order)) (lim : Limit) (l : List Nat) :
    wfQueue orders lim l = true ↔
      chainSeg orders none lim.head_order l none = true ∧
      lim.tail_order = l.getLast? ∧ nodupB l = true ∧
      lim.order_count = l.length := by
  simp [wfQueue, Bool.and_eq_true, and_assoc]

theorem aggOk_iff (orders : List (Nat × Order)) (lim : Limit) (l : List Nat) :
    aggOk orders lim l = true ↔
      lim.size = sumShares orders l ∧
      lim.total_vol = lim.limit_price * lim.size ∧
      lim.size < W64 ∧ lim.total_vol < W64 ∧ lim.order_count < W64 := by
  simp [aggOk, Bool.and_eq_true, and_assoc]

theorem disjointB_iff (l1 l2 : List Nat) :
    disjointB l1 l2 = true ↔ ∀ x ∈ l1, x ∉ l2 := by
  simp [disjointB]

theorem pairwiseDisj_iff (L : List (List Nat)) :
    pairwiseDisj L = true ↔ L.Pairwise (fun a b => disjointB a b = true) := by
  induction L with
  | nil => simp [pairwiseDisj]
  | cons l ls ih => simp [pairwiseDisj, List.pairwise_cons, ih, Bool.and_eq_true]

theorem disjointB_symm {l1 l2 : List Nat} (h : disjointB l1 l2 = true) :
    disjointB l2 l1 = true := by
  rw [disjointB_iff] at h ⊢
  intro x hx hx1
  exact h x hx1 hx

theorem levelOkS_iff (ob : OrderBook) (ql : Nat → List Nat) (e : Nat × Nat) :
    levelOkS ob ql e = true ↔
      ∃ lim, mapGet ob.limits_ownership_map e.2 = some lim ∧
        lim.limit_price = e.1 ∧
        wfQueue ob.orders_ownership_map lim (ql e.2) = true := by
  cases hg : mapGet ob.limits_ownership_map e.2 with
  | none => simp [levelOkS, hg]
  | some lim => simp [levelOkS, hg, Bool.and_eq_true]

theorem levelOkA_iff (ob : OrderBook) (ql : Nat → List Nat) (e : Nat × Nat) :
    levelOkA ob ql e = true ↔
      ∃ lim, mapGet ob.limits_ownership_map e.2 = some lim ∧
        aggOk ob.orders_ownership_map lim (ql e.2) = true := by
  cases hg : mapGet ob.limits_ownership_map e.2 with
  | none => simp [levelOkA, hg]
  | some lim => simp [levelOkA, hg]

theorem bookWfS_iff (ob : OrderBook) (ql : Nat → List Nat) :
    bookWfS ob ql = true ↔
      keysNodup ob.limits_lookup_map = true ∧
      (∀ e ∈ ob.limits_lookup_map, levelOkS ob ql e = true) ∧
      pairwiseDisj (ob.limits_lookup_map.map (fun e => ql e.2)) = true := by
  simp [bookWfS, Bool.and_eq_true, List.all_eq_true, and_assoc]

theorem bookWfA_iff (ob : OrderBook) (ql : Nat → List Nat) :
    bookWfA ob ql = true ↔
      bookWfS ob ql = true ∧
      (∀ e ∈ ob.limits_lookup_map, levelOkA ob ql e = true) := by
  simp [bookWfA, Bool.and_eq_true, List.all_eq_true]

theorem mapGet_of_mem_keysNodup {α : Type} {m : List (Nat × α)} {k : Nat} {v : α}
    (hnd : keysNodup m = true) (hmem : (k, v) ∈ m) : mapGet m k = some v := by
  induction m with
  | nil => simp at hmem
  | cons e rest ih =>
    rw [keysNodup, nodupB_eq, List.map_cons, List.nodup_cons] at hnd
    rcases List.mem_cons.mp hmem with h1 | h1
    · rw [← h1]
      simp [mapGet]
    · have hk : k ∈ rest.map Prod.fst := List.mem_map_of_mem Prod.fst h1
      have hek : e.1 ≠ k := fun hh => hnd.1 (hh ▸ hk)
      simp only [mapGet, if_neg hek]
      exact ih (by rw [keysNodup, nodupB_eq]; exact hnd.2) h1

/-! ## Extending a queue at the head (the effect of `add_order`) -/

theorem wfQueue_cons
    {orders orders2 : List (Nat × Order)} {lim lim1 : Limit} {l : List Nat}
    {oid : Nat} {o1 : Order}
    (hwf : wfQueue orders lim l = true)
    (hfresh : mapGet orders oid = none)
    (ho1 : mapGet orders2 oid = some o1)
    (ho1p : o1.prev_order = none) (ho1n : o1.next_order = lim.head_order)
    (hl1h : lim1.head_order = some oid)
    (hl1t : lim1.tail_order = (match lim.head_order with
       | none => some oid
       | some _ => lim.tail_order))
    (hl1c : lim1.order_count = add64 lim.order_count 1)
    (hlen : l.length + 1 < W64)
    (hframe : ∀ j ∈ l, (∀ hid, lim.head_order = some hid → j ≠ hid) →
       mapGet orders2 j = mapGet orders j)
    (hheadupd : ∀ hid ho, lim.head_order = some hid →
       mapGet orders hid = some ho →
       mapGet orders2 hid = some { ho with prev_order := some oid }) :
    wfQueue orders2 lim1 (oid :: l) = true := by
  rw [wfQueue_iff] at hwf ⊢
  obtain ⟨hc, ht, hnd, hcount⟩ := hwf
  have hoidl : oid ∉ l := by
    intro hmem
    obtain ⟨o, ho⟩ := chainSeg_mem_get hmem hc
    rw [hfresh] at ho
    cases ho
  refine ⟨?_, ?_, ?_, ?_⟩
  · rw [chainSeg_cons_iff]
    refine ⟨hl1h, o1, ho1, ho1p, ?_⟩
    rw [ho1n]
    cases l with
    | nil =>
      rw [chainSeg_nil_iff] at hc
      rw [hc, chainSeg_nil_iff]
    | cons h0 rest =>
      rw [chainSeg_cons_iff] at hc
      obtain ⟨hh0, oh, hoh, hohp, hrest⟩ := hc
      rw [hh0, chainSeg_cons_iff]
      have hget2 : mapGet orders2 h0 = some { oh with prev_order := some oid } :=
        hheadupd h0 oh hh0 hoh
      refine ⟨rfl, { oh with prev_order := some oid }, hget2, rfl, ?_⟩
      have hh0rest : h0 ∉ rest := by
        rw [nodupB_eq, List.nodup_cons] at hnd
        exact hnd.1
      exact chainSeg_frame
        (fun j hj => hframe j (List.mem_cons_of_mem _ hj)
          (fun hid hhid => by
            rw [hh0] at hhid
            cases hhid
            exact fun hjh => hh0rest (hjh ▸ hj)))
        hrest
  · cases hl : lim.head_order with
    | none =>
      have hnil : l = [] := by
        cases l with
        | nil => rfl
        | cons h0 rest =>
          rw [chainSeg_cons_iff] at hc
          rw [hl] at hc
          exact absurd hc.1 (by simp)
      rw [hl] at hl1t
      subst hnil
      simpa using hl1t
    | some hid =>
      cases l with
      | nil =>
        rw [chainSeg_nil_iff, hl] at hc
        cases hc
      | cons h0 rest =>
        rw [hl] at hl1t
        simp only [List.getLast?_cons_cons]
        rw [hl1t, ht]
  · rw [nodupB_eq] at hnd ⊢
    exact List.nodup_cons.mpr ⟨hoidl, hnd⟩
  · rw [hl1c, hcount, List.length_cons]
    exact add64_eq hlen

theorem aggOk_cons
    {orders orders2 : List (Nat × Order)} {lim lim1 : Limit} {l : List Nat}
    {oid : Nat} {o1 : Order} {osh : Nat}
    (hagg : aggOk orders lim l = true)
    (ho1 : mapGet orders2 oid = some o1)
    (ho1s : o1.shares = osh)
    (hframe : ∀ j ∈ l, sharesOf orders2 j = sharesOf orders j)
    (hl1s : lim1.size = add64 lim.size osh)
    (hl1v : lim1.total_vol = add64 lim.total_vol (mul64 osh lim.limit_price))
    (hl1c : lim1.order_count = add64 lim.order_count 1)
    (hl1p : lim1.limit_price = lim.limit_price)
    (hnos : lim.size + osh < W64)
    (hnov : lim.total_vol + osh * lim.limit_price < W64) :
    aggOk orders2 lim1 (oid :: l) = true := by
  rw [aggOk_iff] at hagg ⊢
  obtain ⟨hs, hv, hbs, hbv, hbc⟩ := hagg
  have hmul : osh * lim.limit_price < W64 := by omega
  have hsize : lim1.size = lim.size + osh := by rw [hl1s, add64_eq hnos]
  have hvol : lim1.total_vol = lim.total_vol + osh * lim.limit_price := by
    rw [hl1v, mul64_eq hmul, add64_eq hnov]
  refine ⟨?_, ?_, ?_, ?_, ?_⟩
  · rw [hsize]
    have : sumShares orders2 (oid :: l) = sharesOf orders2 oid + sumShares orders2 l := by
      simp [sumShares]
    rw [this, sharesOf_eq ho1, ho1s, sumShares_congr hframe, ← hs]
    omega
  · rw [hvol, hsize, hl1p, hv]
    ring
  · omega
  · omega
  · rw [hl1c]
    exact add64_lt _ _

/-! ## Characterization of `add_order` on a registered price -/

theorem add_order_succ
    (ob : OrderBook) (o : Order) (lid : Nat) (lim : Limit)
    (hlk : mapGet ob.limits_lookup_map o.limit = some lid)
    (hlim : mapGet ob.limits_ownership_map lid = some lim)
    (hhead : ∀ hid, lim.head_order = some hid →
      ∃ ho, mapGet ob.orders_ownership_map hid = some ho) :
    ∃ ob2, add_order ob o = some ob2 := by
  cases hh : lim.head_order with
  | none =>
    simp only [add_order, hlk, hlim, hh]
    exact ⟨_, rfl⟩
  | some hid0 =>
    obtain ⟨ho0, hho0⟩ := hhead hid0 hh
    simp only [add_order, hlk, hlim, hh, hho0]
    exact ⟨_, rfl⟩

theorem add_order_post
    (ob : OrderBook) (o : Order) (lid : Nat) (lim : Limit) (ob2 : OrderBook)
    (hlk : mapGet ob.limits_lookup_map o.limit = some lid)
    (hlim : mapGet ob.limits_ownership_map lid = some lim)
    (heq : add_order ob o = some ob2) :
    ∃ lim1,
      mapGet ob2.limits_ownership_map lid = some lim1 ∧
      lim1.head_order = some o.order_id ∧
      lim1.tail_order = (match lim.head_order with
        | none => some o.order_id
        | some _ => lim.tail_order) ∧
      lim1.order_count = add64 lim.order_count 1 ∧
      lim1.size = add64 lim.size o.shares ∧
      lim1.total_vol = add64 lim.total_vol (mul64 o.shares lim.limit_price) ∧
      lim1.limit_price = lim.limit_price ∧
      mapGet ob2.orders_ownership_map o.order_id =
        some { o with parent_limit := some lid, next_order := lim.head_order,
                      prev_order := none } ∧
      ob2.limits_lookup_map = ob.limits_lookup_map ∧
      ob2.buy_tree_root = ob.buy_tree_root ∧
      ob2.sell_tree_root = ob.sell_tree_root ∧
      (∀ l2, l2 ≠ lid →
        mapGet ob2.limits_ownership_map l2 = mapGet ob.limits_ownership_map l2) ∧
      (∀ j, j ≠ o.order_id → (∀ hid, lim.head_order = some hid → j ≠ hid) →
        mapGet ob2.orders_ownership_map j = mapGet ob.orders_ownership_map j) ∧
      (∀ hid ho, lim.head_order = some hid → hid ≠ o.order_id →
        mapGet ob.orders_ownership_map hid = some ho →
        mapGet ob2.orders_ownership_map hid =
          some { ho with prev_order := some o.order_id }) := by
  cases hh : lim.head_order with
  | none =>
    simp only [add_order, hlk, hlim, hh] at heq
    injection heq with heq
    subst heq
    refine ⟨_, mapGet_insert_self _ _ _, rfl, rfl, rfl, rfl, rfl, rfl,
      mapGet_insert_self _ _ _, rfl, rfl, rfl,
      fun l2 hl2 => mapGet_insert_ne _ _ _ _ hl2,
      fun j hj _ => mapGet_insert_ne _ _ _ _ hj,
      fun hid ho hhid => Option.noConfusion hhid⟩
  | some hid0 =>
    cases hho0 : mapGet ob.orders_ownership_map hid0 with
    | none =>
      simp only [add_order, hlk, hlim, hh, hho0] at heq
      exact Option.noConfusion heq
    | some ho0 =>
      simp only [add_order, hlk, hlim, hh, hho0] at heq
      injection heq with heq
      subst heq
      refine ⟨_, mapGet_insert_self _ _ _, rfl, rfl, rfl, rfl, rfl, rfl,
        mapGet_insert_self _ _ _, rfl, rfl, rfl,
        fun l2 hl2 => mapGet_insert_ne _ _ _ _ hl2,
        fun j hj hjh => ?_, fun hid ho hhid hne hget => ?_⟩
      · have hjh0 : j ≠ hid0 := hjh hid0 rfl
        rw [mapGet_insert_ne _ _ _ _ hj, mapGet_insert_ne _ _ _ _ hjh0]
      · injection hhid with hhid
        subst hhid
        rw [hho0] at hget
        injection hget with hget
        subst hget
        rw [mapGet_insert_ne _ _ _ _ hne]
        exact mapGet_insert_self _ _ _

/-! ## Global well-formedness: helper extraction lemmas -/

theorem not_mem_of_fresh {orders : List (Nat × Order)} {l : List Nat} {a : Nat}
    {p h endp : Option Nat}
    (hfresh : mapGet orders a = none) (hc : chainSeg orders p h l endp = true) :
    a ∉ l := by
  intro hmem
  obtain ⟨o, ho⟩ := chainSeg_mem_get hmem hc
  rw [hfresh] at ho
  cases ho

theorem wfQueue_frame {orders orders2 : List (Nat × Order)} {lim : Limit}
    {l : List Nat} (hf : ∀ j ∈ l, mapGet orders2 j = mapGet orders j)
    (h : wfQueue orders lim l = true) : wfQueue orders2 lim l = true := by
  rw [wfQueue_iff] at h ⊢
  exact ⟨chainSeg_frame hf h.1, h.2.1, h.2.2.1, h.2.2.2⟩

theorem bookWfS_level {ob : OrderBook} {ql : Nat → List Nat}
    (h : bookWfS ob ql = true) {p lid : Nat}
    (hlk : mapGet ob.limits_lookup_map p = some lid) :
    ∃ lim, mapGet ob.limits_ownership_map lid = some lim ∧
      lim.limit_price = p ∧
      wfQueue ob.orders_ownership_map lim (ql lid) = true := by
  rw [bookWfS_iff] at h
  have hmem := mapGet_mem hlk
  have := h.2.1 _ hmem
  rw [levelOkS_iff] at this
  exact this

theorem wfQueue_head_record {orders : List (Nat × Order)} {lim : Limit}
    {l : List Nat} (h : wfQueue orders lim l = true) {hid : Nat}
    (hh : lim.head_order = some hid) :
    ∃ ho rest, l = hid :: rest ∧ mapGet orders hid = some ho := by
  rw [wfQueue_iff] at h
  obtain ⟨hc, -, -, -⟩ := h
  cases l with
  | nil =>
    rw [chainSeg_nil_iff, hh] at hc
    cases hc
  | cons h0 rest =>
    rw [chainSeg_cons_iff] at hc
    obtain ⟨hh0, oh, hoh, -, -⟩ := hc
    rw [hh] at hh0
    injection hh0 with hh0
    subst hh0
    exact ⟨oh, rest, rfl, hoh⟩

theorem pairwiseDisj_get {L : List (Nat × Nat)} {ql : Nat → List Nat}
    (hpd : pairwiseDisj (L.map fun e => ql e.2) = true)
    {e1 e2 : Nat × Nat} (h1 : e1 ∈ L) (h2 : e2 ∈ L) (hne : e1 ≠ e2) :
    disjointB (ql e1.2) (ql e2.2) = true := by
  rw [pairwiseDisj_iff, List.pairwise_map] at hpd
  have hsym : Symmetric (fun a b : Nat × Nat => disjointB (ql a.2) (ql b.2) = true) :=
    fun a b hab => disjointB_symm hab
  exact List.Pairwise.forall hsym hpd h1 h2 hne

theorem pairwiseDisj_cons_iff (l : List Nat) (ls : List (List Nat)) :
    pairwiseDisj (l :: ls) = true ↔
      (∀ l2 ∈ ls, disjointB l l2 = true) ∧ pairwiseDisj ls = true := by
  simp [pairwiseDisj, Bool.and_eq_true, List.all_eq_true]

theorem countP_le_one_of_keys {α : Type} {m : List (Nat × α)}
    {p : Nat × α → Bool} (k0 : Nat)
    (hnd : keysNodup m = true) (hp : ∀ e ∈ m, p e = true → e.1 = k0) :
    m.countP p ≤ 1 := by
  induction m with
  | nil => simp
  | cons e rest ih =>
    rw [keysNodup, nodupB_eq, List.map_cons, List.nodup_cons] at hnd
    have hnd' : keysNodup rest = true := by rw [keysNodup, nodupB_eq]; exact hnd.2
    by_cases hpe : p e = true
    · have hek : e.1 = k0 := hp e (List.mem_cons_self _ _) hpe
      have hzero : rest.countP p = 0 := by
        rw [List.countP_eq_zero]
        intro e2 he2 hpe2
        have : e2.1 = k0 := hp e2 (List.mem_cons_of_mem _ he2) hpe2
        exact hnd.1 (hek ▸ this ▸ List.mem_map_of_mem Prod.fst he2)
      rw [List.countP_cons, hzero]
      simp [hpe]
    · rw [List.countP_cons]
      simp only [hpe, if_false, Nat.add_zero]
      exact ih hnd' (fun e2 he2 => hp e2 (List.mem_cons_of_mem _ he2))

theorem pairwiseDisj_add
    (L : List (Nat × Nat)) (ql : Nat → List Nat) (lid oid : Nat)
    (hpd : pairwiseDisj (L.map fun e => ql e.2) = true)
    (hfr : ∀ e ∈ L, oid ∉ ql e.2)
    (hcnt : L.countP (fun e => e.2 == lid) ≤ 1) :
    pairwiseDisj (L.map fun e => if e.2 = lid then oid :: ql lid else ql e.2) = true := by
  induction L with
  | nil => simp [pairwiseDisj]
  | cons e0 L2 ih =>
    rw [List.map_cons, pairwiseDisj_cons_iff]
    rw [List.map_cons, pairwiseDisj_cons_iff] at hpd
    by_cases he0 : e0.2 = lid
    · have hz : L2.countP (fun e => e.2 == lid) = 0 := by
        rw [List.countP_cons] at hcnt
        simp only [he0, beq_self_eq_true, if_true] at hcnt
        omega
      have hnol : ∀ e ∈ L2, ¬(e.2 = lid) := by
        rw [List.countP_eq_zero] at hz
        intro e he
        simpa using hz e he
      have hmapeq : (L2.map fun e => if e.2 = lid then oid :: ql lid else ql e.2) =
          L2.map (fun e => ql e.2) :=
        List.map_congr_left (fun e he => by rw [if_neg (hnol e he)])
      rw [if_pos he0, hmapeq]
      refine ⟨?_, hpd.2⟩
      intro l2 hl2
      obtain ⟨e, he, rfl⟩ := List.mem_map.mp hl2
      rw [disjointB_iff]
      intro x hx
      rcases List.mem_cons.mp hx with hx1 | hx1
      · subst hx1
        exact hfr e (List.mem_cons_of_mem _ he)
      · have hd := hpd.1 (ql e.2) (List.mem_map_of_mem _ he)
        rw [disjointB_iff] at hd
        exact hd x (he0 ▸ hx1)
    · rw [if_neg he0]
      have hcnt' : L2.countP (fun e => e.2 == lid) ≤ 1 := by
        rw [List.countP_cons] at hcnt
        have hb : (e0.2 == lid) = false := by simpa using he0
        rw [hb] at hcnt
        simpa using Nat.le_trans (Nat.le_add_right _ _) hcnt
      refine ⟨?_, ih hpd.2 (fun e he => hfr e (List.mem_cons_of_mem _ he)) hcnt'⟩
      intro l2 hl2
      obtain ⟨e, he, rfl⟩ := List.mem_map.mp hl2
      by_cases hel : e.2 = lid
      · rw [if_pos hel, disjointB_iff]
        intro x hx hmem
        rcases List.mem_cons.mp hmem with hm1 | hm1
        · exact hfr e0 (List.mem_cons_self _ _) (hm1 ▸ hx)
        · have hd := hpd.1 (ql e.2) (List.mem_map_of_mem _ he)
          rw [disjointB_iff] at hd
          exact hd x hx (hel ▸ hm1)
      · rw [if_neg hel]
        exact hpd.1 (ql e.2) (List.mem_map_of_mem _ he)

theorem fresh_not_in_chains {ob : OrderBook} {ql : Nat → List Nat} {a : Nat}
    (hwf : bookWfS ob ql = true)
    (hfresh : mapGet ob.orders_ownership_map a = none) :
    ∀ e ∈ ob.limits_lookup_map, a ∉ ql e.2 := by
  intro e he
  rw [bookWfS_iff] at hwf
  have := hwf.2.1 e he
  rw [levelOkS_iff] at this
  obtain ⟨lim, -, -, hq⟩ := this
  rw [wfQueue_iff] at hq
  exact not_mem_of_fresh hfresh hq.1

/-- Submitting a fresh order at a registered price succeeds and preserves the
structural well-formedness of the book; the order's id is pushed onto the
head of its level's queue and nothing else changes. -/
theorem add_order_bookWfS
    (ob : OrderBook) (ql : Nat → List Nat) (o : Order) (lid : Nat)
    (hwf : bookWfS ob ql = true)
    (hlk : mapGet ob.limits_lookup_map o.limit = some lid)
    (hfresh : mapGet ob.orders_ownership_map o.order_id = none)
    (hlen : (ql lid).length + 1 < W64) :
    ∃ ob2, add_order ob o = some ob2 ∧
      bookWfS ob2 (fun x => if x = lid then o.order_id :: ql lid else ql x) = true ∧
      ob2.limits_lookup_map = ob.limits_lookup_map ∧
      (∀ j, j ≠ o.order_id → mapGet ob.orders_ownership_map j = none →
        mapGet ob2.orders_ownership_map j = none) := by
  obtain ⟨lim, hlim, hprice, hwfq⟩ := bookWfS_level hwf hlk
  have hhead : ∀ hid, lim.head_order = some hid →
      ∃ ho, mapGet ob.orders_ownership_map hid = some ho := by
    intro hid hh
    obtain ⟨ho, rest, -, hget⟩ := wfQueue_head_record hwfq hh
    exact ⟨ho, hget⟩
  obtain ⟨ob2, heq⟩ := add_order_succ ob o lid lim hlk hlim hhead
  obtain ⟨lim1, hlim1, h1h, h1t, h1c, h1s, h1v, h1p, hstore, hlkeq, hbuy, hsell,
    hlframe, hoframe, hheadupd⟩ := add_order_post ob o lid lim ob2 hlk hlim heq
  have hchains := fresh_not_in_chains hwf hfresh
  have he0mem : (o.limit, lid) ∈ ob.limits_lookup_map := mapGet_mem hlk
  have hw := hwf
  rw [bookWfS_iff] at hw
  obtain ⟨hknd, hall, hpd⟩ := hw
  have hvallid : ∀ e ∈ ob.limits_lookup_map, e.2 = lid → e.1 = o.limit := by
    intro e he helid
    have := hall e he
    rw [levelOkS_iff] at this
    obtain ⟨lime, hgete, hpe, -⟩ := this
    rw [helid, hlim] at hgete
    injection hgete with hgete
    subst hgete
    rw [← hpe, hprice]
  have hne_head : ∀ hid, lim.head_order = some hid → hid ≠ o.order_id := by
    intro hid hh hcon
    obtain ⟨ho, rest, -, hget⟩ := wfQueue_head_record hwfq hh
    rw [hcon, hfresh] at hget
    cases hget
  refine ⟨ob2, heq, ?_, hlkeq, ?_⟩
  · rw [bookWfS_iff]
    refine ⟨by rw [hlkeq]; exact hknd, ?_, ?_⟩
    · rw [hlkeq]
      intro e he
      rw [levelOkS_iff]
      by_cases helid : e.2 = lid
      · refine ⟨lim1, by rw [helid]; exact hlim1, ?_, ?_⟩
        · rw [h1p, hprice, hvallid e he helid]
        · rw [helid]
          simp only [if_pos rfl]
          refine wfQueue_cons hwfq hfresh hstore rfl rfl h1h h1t h1c hlen ?_ ?_
          · intro j hj hjh
            refine hoframe j ?_ hjh
            intro hcon
            exact hchains (o.limit, lid) he0mem (hcon ▸ hj)
          · intro hid ho hh hget
            exact hheadupd hid ho hh (hne_head hid hh) hget
      · have hthis := hall e he
        rw [levelOkS_iff] at hthis
        obtain ⟨lime, hge, hpe, hwfe⟩ := hthis
        refine ⟨lime, by rw [hlframe e.2 helid]; exact hge, hpe, ?_⟩
        simp only [if_neg helid]
        refine wfQueue_frame ?_ hwfe
        intro j hj
        refine hoframe j ?_ ?_
        · intro hcon
          exact hchains e he (hcon ▸ hj)
        · intro hid hh hcon
          obtain ⟨ho, rest, hql, -⟩ := wfQueue_head_record hwfq hh
          have hne : e ≠ (o.limit, lid) := by
            intro hcon2
            exact helid (by rw [hcon2])
          have hd := pairwiseDisj_get hpd he he0mem hne
          rw [disjointB_iff] at hd
          exact hd j hj (by rw [hql]; exact hcon ▸ List.mem_cons_self _ _)
    · rw [hlkeq]
      have hcnt : ob.limits_lookup_map.countP (fun e => e.2 == lid) ≤ 1 := by
        refine countP_le_one_of_keys o.limit hknd ?_
        intro e he hpe
        exact hvallid e he (by simpa using hpe)
      exact pairwiseDisj_add _ ql lid o.order_id hpd hchains hcnt
  · intro j hj hnone
    have hjh : ∀ hid, lim.head_order = some hid → j ≠ hid := by
      intro hid hh hcon
      obtain ⟨ho, rest, -, hget⟩ := wfQueue_head_record hwfq hh
      rw [hcon, hget] at hnone
      cases hnone
    rw [hoframe j hj hjh]
    exact hnone

theorem submitAll_bookWfS :
    ∀ (os : List Order) (ob : OrderBook) (ql : Nat → List Nat),
      bookWfS ob ql = true →
      (∀ o ∈ os, mapGet ob.orders_ownership_map o.order_id = none) →
      nodupB (os.map Order.order_id) = true →
      (∀ x, (ql x).length + os.length < W64) →
      ∃ ob2, submitAll ob os = some ob2 ∧
        ob2.limits_lookup_map = ob.limits_lookup_map ∧
        bookWfS ob2 (qlSubmit ob.limits_lookup_map ql os) = true := by
  intro os
  induction os with
  | nil =>
    intro ob ql hwf hfresh hnd hlen
    exact ⟨ob, rfl, rfl, hwf⟩
  | cons o os2 ih =>
    intro ob ql hwf hfresh hnd hlen
    have hfresh2 : ∀ o2 ∈ os2, mapGet ob.orders_ownership_map o2.order_id = none :=
      fun o2 h2 => hfresh o2 (List.mem_cons_of_mem _ h2)
    have hnd2 : nodupB (os2.map Order.order_id) = true := by
      rw [List.map_cons] at hnd
      rw [nodupB_eq] at hnd ⊢
      exact (List.nodup_cons.mp hnd).2
    have hoid_not : o.order_id ∉ os2.map Order.order_id := by
      rw [List.map_cons, nodupB_eq, List.nodup_cons] at hnd
      exact hnd.1
    cases hlk : mapGet ob.limits_lookup_map o.limit with
    | none =>
      have heq : add_order ob o = some ob := by
        simp only [add_order, hlk]
      obtain ⟨ob2, hsub, hlkeq, hwf2⟩ := ih ob ql hwf hfresh2 hnd2
        (fun x => by have := hlen x; simp only [List.length_cons] at this; omega)
      refine ⟨ob2, by simp only [submitAll, heq]; exact hsub, hlkeq, ?_⟩
      have hfun : qlSubmit ob.limits_lookup_map ql (o :: os2) =
          qlSubmit ob.limits_lookup_map ql os2 := by
        funext x
        simp [qlSubmit, List.filter_cons, hlk]
      rw [hfun]
      exact hwf2
    | some lid0 =>
      have hlen0 : (ql lid0).length + 1 < W64 := by
        have := hlen lid0
        simp only [List.length_cons] at this
        omega
      obtain ⟨ob1, heq, hwf1, hlkeq1, hkeep⟩ :=
        add_order_bookWfS ob ql o lid0 hwf hlk (hfresh o (List.mem_cons_self _ _)) hlen0
      have hfresh1 : ∀ o2 ∈ os2, mapGet ob1.orders_ownership_map o2.order_id = none := by
        intro o2 h2
        refine hkeep o2.order_id ?_ (hfresh2 o2 h2)
        intro hcon
        exact hoid_not (hcon ▸ List.mem_map_of_mem Order.order_id h2)
      have hlen1 : ∀ x,
          ((fun y => if y = lid0 then o.order_id :: ql lid0 else ql y) x).length +
            os2.length < W64 := by
        intro x
        by_cases hx : x = lid0
        · simp only [hx, if_true, eq_self_iff_true, List.length_cons]
          have := hlen lid0
          simp only [List.length_cons] at this
          omega
        · simp only [if_neg hx]
          have := hlen x
          simp only [List.length_cons] at this
          omega
      obtain ⟨ob2, hsub, hlkeq2, hwf2⟩ := ih ob1 _ hwf1 hfresh1 hnd2 hlen1
      refine ⟨ob2, by simp only [submitAll, heq]; exact hsub,
        by rw [hlkeq2, hlkeq1], ?_⟩
      rw [hlkeq1] at hwf2
      have hfun : qlSubmit ob.limits_lookup_map
          (fun y => if y = lid0 then o.order_id :: ql lid0 else ql y) os2 =
          qlSubmit ob.limits_lookup_map ql (o :: os2) := by
        funext x
        by_cases hx : x = lid0
        · subst hx
          simp only [qlSubmit, List.filter_cons, hlk, beq_self_eq_true, if_true,
            eq_self_iff_true, List.map_cons, List.reverse_cons, List.append_assoc,
            List.cons_append, List.nil_append]
        · have hb : (some lid0 == some x) = false := by simpa using fun h => hx h.symm
          simp only [qlSubmit, List.filter_cons, hlk, hb, if_neg hx]
          simp
      rw [hfun] at hwf2
      exact hwf2

/-! ## Removing or updating the queue's last element (the effect of draining) -/

theorem sub64_lt (a b : Nat) : sub64 a b < W64 := Nat.mod_lt _ W64_pos

theorem eq_dropLast_append {l : List Nat} {t : Nat} (h : l.getLast? = some t) :
    l = l.dropLast ++ [t] := by
  induction l using List.reverseRecOn with
  | nil => simp at h
  | append_singleton xs x _ =>
    rw [List.getLast?_concat] at h
    injection h with h
    subst h
    rw [List.dropLast_concat]

theorem lastPtr_none_eq (l : List Nat) : lastPtr none l = l.getLast? := by
  cases hg : l.getLast? <;> simp [lastPtr, hg]

theorem chainSeg_update_links_eq {orders : List (Nat × Order)} {i : Nat} {o o2 : Order}
    (hget : mapGet orders i = some o)
    (hn : o2.next_order = o.next_order) (hp : o2.prev_order = o.prev_order) :
    ∀ {l : List Nat} {p h endp : Option Nat}, chainSeg orders p h l endp = true →
      chainSeg (mapInsert orders i o2) p h l endp = true := by
  intro l
  induction l with
  | nil =>
    intro p h endp hc
    rw [chainSeg_nil_iff] at hc ⊢
    exact hc
  | cons j rest ih =>
    intro p h endp hc
    rw [chainSeg_cons_iff] at hc ⊢
    obtain ⟨hh, oj, hoj, hojp, hrest⟩ := hc
    by_cases hji : j = i
    · subst hji
      rw [hoj] at hget
      injection hget with hget
      subst hget
      exact ⟨hh, o2, mapGet_insert_self _ _ _, by rw [hp]; exact hojp,
        by rw [hn]; exact ih hrest⟩
    · exact ⟨hh, oj, by rw [mapGet_insert_ne _ _ _ _ hji]; exact hoj, hojp, ih hrest⟩

theorem chainSeg_retarget_last {orders orders2 : List (Nat × Order)}
    (v : Option Nat) :
    ∀ (l2 : List Nat) (hne : l2 ≠ []) {p h : Option Nat} {t : Nat},
      chainSeg orders p h l2 (some t) = true →
      nodupB l2 = true →
      (∀ j ∈ l2, j ≠ l2.getLast hne → mapGet orders2 j = mapGet orders j) →
      (∀ po, mapGet orders (l2.getLast hne) = some po →
        mapGet orders2 (l2.getLast hne) = some { po with next_order := v }) →
      chainSeg orders2 p h l2 v = true := by
  intro l2
  induction l2 with
  | nil => intro hne; exact absurd rfl hne
  | cons x xs ih =>
    intro hne p h t hc hnd hframe hlast
    rw [chainSeg_cons_iff] at hc ⊢
    obtain ⟨hh, ox, hox, hoxp, hrest⟩ := hc
    cases hxs : xs with
    | nil =>
      subst hxs
      rw [chainSeg_nil_iff] at hrest
      refine ⟨hh, { ox with next_order := v }, hlast ox hox, hoxp, ?_⟩
      rw [chainSeg_nil_iff]
    | cons y ys =>
      subst hxs
      have hxsne : (y :: ys) ≠ [] := List.cons_ne_nil y ys
      have hgl : (x :: y :: ys).getLast hne = (y :: ys).getLast hxsne :=
        List.getLast_cons hxsne
      have hxnl : x ≠ (y :: ys).getLast hxsne := by
        rw [nodupB_eq, List.nodup_cons] at hnd
        intro hcon
        exact hnd.1 (hcon ▸ List.getLast_mem hxsne)
      refine ⟨hh, ox, ?_, hoxp, ?_⟩
      · rw [hframe x (List.mem_cons_self _ _) (hgl ▸ hxnl)]
        exact hox
      · refine ih hxsne hrest ?_ ?_ ?_
        · rw [nodupB_eq, List.nodup_cons] at hnd
          rw [nodupB_eq]
          exact hnd.2
        · intro j hj hjl
          exact hframe j (List.mem_cons_of_mem _ hj) (hgl ▸ hjl)
        · intro po hpo
          rw [← hgl] at hpo ⊢
          exact hlast po hpo

theorem chainSeg_reprev_first {orders orders2 : List (Nat × Order)}
    {l2 : List Nat} {p p' h endp : Option Nat}
    (hc : chainSeg orders p h l2 endp = true)
    (hfirst : ∀ x xs, l2 = x :: xs → ∀ ox, mapGet orders x = some ox →
      mapGet orders2 x = some { ox with prev_order := p' })
    (hframe : ∀ j ∈ l2, (∀ x xs, l2 = x :: xs → j ≠ x) →
      mapGet orders2 j = mapGet orders j)
    (hnd : nodupB l2 = true) :
    chainSeg orders2 p' h l2 endp = true := by
  cases l2 with
  | nil =>
    rw [chainSeg_nil_iff] at hc ⊢
    exact hc
  | cons x xs =>
    rw [chainSeg_cons_iff] at hc ⊢
    obtain ⟨hh, ox, hox, -, hrest⟩ := hc
    refine ⟨hh, { ox with prev_order := p' }, hfirst x xs rfl ox hox, rfl, ?_⟩
    rw [nodupB_eq, List.nodup_cons] at hnd
    refine chainSeg_frame ?_ hrest
    intro j hj
    refine hframe j (List.mem_cons_of_mem _ hj) ?_
    intro x2 xs2 heq2 hcon
    injection heq2 with he1 he2
    subst he1
    exact hnd.1 (hcon ▸ hj)

theorem sumShares_update {orders : List (Nat × Order)} {l : List Nat} {i : Nat}
    {o o2 : Order} (hnd : nodupB l = true) (hi : i ∈ l)
    (hget : mapGet orders i = some o) :
    sumShares (mapInsert orders i o2) l = sumShares orders l - o.shares + o2.shares := by
  induction l with
  | nil => simp at hi
  | cons j rest ih =>
    rw [nodupB_eq, List.nodup_cons] at hnd
    have hsum_cons : ∀ (m : List (Nat × Order)) (x : Nat) (xs : List Nat),
        sumShares m (x :: xs) = sharesOf m x + sumShares m xs := by
      intro m x xs
      simp [sumShares]
    rcases List.mem_cons.mp hi with hji | hji
    · subst hji
      rw [hsum_cons, hsum_cons, sharesOf_eq hget, sharesOf_eq (mapGet_insert_self _ _ _)]
      have hrest_eq : sumShares (mapInsert orders i o2) rest = sumShares orders rest := by
        refine sumShares_congr ?_
        intro x hx
        have hxi : x ≠ i := fun hcon => hnd.1 (hcon ▸ hx)
        simp [sharesOf, mapGet_insert_ne _ _ _ _ hxi]
      rw [hrest_eq]
      omega
    · have hji2 : j ≠ i := fun hcon => hnd.1 (hcon ▸ hji)
      rw [hsum_cons, hsum_cons]
      have hshj : sharesOf (mapInsert orders i o2) j = sharesOf orders j := by
        simp [sharesOf, mapGet_insert_ne _ _ _ _ hji2]
      rw [hshj, ih (by rw [nodupB_eq]; exact hnd.2) hji]
      have hole : o.shares ≤ sumShares orders rest := by
        have := sharesOf_le_sum (m := orders) hji
        rw [sharesOf_eq hget] at this
        exact this
      omega

theorem nat_mul_sub (a b c : Nat) : a * (b - c) = a * b - a * c := by
  rw [Nat.mul_comm, Nat.sub_mul, Nat.mul_comm, Nat.mul_comm c a]

/-- Aggregate step when the queue's last (oldest) order is fully consumed. -/
theorem aggOk_shrink {orders orders2 : List (Nat × Order)} {lim lim1 : Limit}
    {l2 : List Nat} {tid : Nat} {o : Order}
    (hagg : aggOk orders lim (l2 ++ [tid]) = true)
    (hgeto : mapGet orders tid = some o)
    (hshframe : ∀ j ∈ l2, sharesOf orders2 j = sharesOf orders j)
    (h1s : lim1.size = sub64 lim.size o.shares)
    (h1v : lim1.total_vol = sub64 lim.total_vol (mul64 o.shares lim.limit_price))
    (h1p : lim1.limit_price = lim.limit_price)
    (h1c : lim1.order_count = sub64 lim.order_count 1) :
    aggOk orders2 lim1 l2 = true := by
  rw [aggOk_iff] at hagg ⊢
  obtain ⟨has, hav, hbs, hbv, hbc⟩ := hagg
  have hsum : sumShares orders (l2 ++ [tid]) = sumShares orders l2 + o.shares := by
    rw [sumShares_append]
    simp [sumShares, sharesOf_eq hgeto]
  have hole : o.shares ≤ lim.size := by
    rw [has, hsum]; omega
  have hmle : o.shares * lim.limit_price ≤ lim.total_vol := by
    rw [hav, Nat.mul_comm lim.limit_price lim.size]
    exact Nat.mul_le_mul_right _ hole
  have hmul : o.shares * lim.limit_price < W64 := lt_of_le_of_lt hmle hbv
  have hsize1 : lim1.size = lim.size - o.shares := by
    rw [h1s, sub64_eq hole hbs]
  have hvol1 : lim1.total_vol = lim.total_vol - o.shares * lim.limit_price := by
    rw [h1v, mul64_eq hmul, sub64_eq hmle hbv]
  refine ⟨?_, ?_, ?_, ?_, ?_⟩
  · rw [hsize1, sumShares_congr hshframe, has, hsum]
    omega
  · rw [hvol1, hsize1, h1p, hav, nat_mul_sub, Nat.mul_comm lim.limit_price o.shares]
  · omega
  · omega
  · rw [h1c]
    exact sub64_lt _ _

/-- Aggregate step for a partial fill of the queue's last (oldest) order. -/
theorem aggOk_partial {orders : List (Nat × Order)} {lim lim1 : Limit}
    {l : List Nat} {tid s : Nat} {o : Order}
    (hagg : aggOk orders lim l = true)
    (hnd : nodupB l = true) (hmem : tid ∈ l)
    (hgeto : mapGet orders tid = some o)
    (hsle : s ≤ o.shares)
    (h1s : lim1.size = sub64 lim.size s)
    (h1v : lim1.total_vol = sub64 lim.total_vol (mul64 s lim.limit_price))
    (h1p : lim1.limit_price = lim.limit_price)
    (h1c : lim1.order_count = lim.order_count) :
    aggOk (mapInsert orders tid { o with shares := o.shares - s }) lim1 l = true := by
  rw [aggOk_iff] at hagg ⊢
  obtain ⟨has, hav, hbs, hbv, hbc⟩ := hagg
  have hole : o.shares ≤ lim.size := by
    have := sharesOf_le_sum (m := orders) hmem
    rw [sharesOf_eq hgeto] at this
    rw [has]
    exact this
  have hsle2 : s ≤ lim.size := le_trans hsle hole
  have hmle : s * lim.limit_price ≤ lim.total_vol := by
    rw [hav, Nat.mul_comm lim.limit_price lim.size]
    exact Nat.mul_le_mul_right _ hsle2
  have hmul : s * lim.limit_price < W64 := lt_of_le_of_lt hmle hbv
  refine ⟨?_, ?_, ?_, ?_, ?_⟩
  · rw [h1s, sub64_eq hsle2 hbs, sumShares_update hnd hmem hgeto]
    rw [has]
    simp only []
    omega
  · rw [h1v, mul64_eq hmul, sub64_eq hmle hbv, h1s, sub64_eq hsle2 hbs, h1p, hav,
      nat_mul_sub, Nat.mul_comm lim.limit_price s]
  · rw [h1s, sub64_eq hsle2 hbs]
    omega
  · rw [h1v, mul64_eq hmul, sub64_eq hmle hbv]
    omega
  · rw [h1c]
    omega

/-- Master specification of `drain_go`: draining consumes the queue from its
oldest end.  Some prefix of the queue's id list survives (still well
formed), the consumed fill ids are exactly an initial segment of the
oldest-first sequence `l.reverse`, orders outside the level are untouched,
and aggregate consistency is preserved. -/
theorem drain_go_spec :
    ∀ (fuel : Nat) (orders : List (Nat × Order)) (lim : Limit) (l : List Nat) (s : Nat),
      wfQueue orders lim l = true →
      l.length ≤ fuel →
      l.length < W64 →
      ∃ orders2 lim2 s2 fills m,
        drain_go orders lim s fuel = (orders2, lim2, s2, fills) ∧
        m ≤ l.length ∧
        wfQueue orders2 lim2 (l.take m) = true ∧
        (∃ k, fills.map Prod.fst = l.reverse.take k) ∧
        (∀ j, j ∉ l → mapGet orders2 j = mapGet orders j) ∧
        lim2.limit_price = lim.limit_price ∧
        (aggOk orders lim l = true → aggOk orders2 lim2 (l.take m) = true) := by
  intro fuel
  induction fuel with
  | zero =>
    intro orders lim l s hwf hfl hlw
    have hl0 : l = [] := List.eq_nil_of_length_eq_zero (Nat.le_zero.mp hfl)
    subst hl0
    exact ⟨orders, lim, s, [], 0, rfl, le_refl 0, hwf, ⟨0, rfl⟩,
      fun j _ => rfl, rfl, fun h => h⟩
  | succ fuel ih =>
    intro orders lim l s hwf hfl hlw
    by_cases hs : s = 0
    · refine ⟨orders, lim, s, [], l.length, ?_, le_refl _, ?_, ⟨0, rfl⟩,
        fun j _ => rfl, rfl, ?_⟩
      · simp only [drain_go, if_pos hs]
      · rw [List.take_length]
        exact hwf
      · rw [List.take_length]
        exact fun h => h
    · have hwfi := (wfQueue_iff _ _ _).mp hwf
      obtain ⟨hc, ht, hnd, hcount⟩ := hwfi
      cases htail : lim.tail_order with
      | none =>
        have hnil : l = [] := by
          rw [htail] at ht
          exact List.getLast?_eq_none_iff.mp ht.symm
        subst hnil
        refine ⟨orders, lim, s, [], 0, ?_, le_refl _, hwf, ⟨0, rfl⟩,
          fun j _ => rfl, rfl, fun h => h⟩
        simp only [drain_go, if_neg hs, htail]
      | some tid =>
        have htgl : l.getLast? = some tid := by rw [← ht, htail]
        obtain ⟨l2, hsplit⟩ : ∃ l2, l = l2 ++ [tid] :=
          ⟨l.dropLast, eq_dropLast_append htgl⟩
        subst hsplit
        have hcsp := (chainSeg_append orders l2 [tid] none lim.head_order none).mp hc
        obtain ⟨hc1, hc2⟩ := hcsp
        rw [chainSeg_cons_iff] at hc2
        obtain ⟨-, o, hgeto, hoprev, honext⟩ := hc2
        rw [chainSeg_nil_iff] at honext
        have hndl := (nodupB_eq _).mp hnd
        have htid_nl2 : tid ∉ l2 := by
          rw [List.nodup_append] at hndl
          intro hm
          exact hndl.2.2 hm (List.mem_singleton_self tid)
        have hnd2 : l2.Nodup := by
          rw [List.nodup_append] at hndl
          exact hndl.1
        have htid_mem : tid ∈ l2 ++ [tid] :=
          List.mem_append_right _ (List.mem_singleton_self tid)
        by_cases hlt : s < o.shares
        · -- partial fill of the oldest order: nothing is removed
          refine ⟨mapInsert orders tid { o with shares := o.shares - s },
            { lim with
                size := sub64 lim.size s
                total_vol := sub64 lim.total_vol (mul64 s lim.limit_price) },
            0, [(tid, s)], (l2 ++ [tid]).length, ?_, le_refl _, ?_, ⟨1, ?_⟩, ?_, rfl, ?_⟩
          · simp only [drain_go, if_neg hs, htail, hgeto, if_pos hlt]
          · rw [List.take_length, wfQueue_iff]
            refine ⟨?_, ht, hnd, hcount⟩
            exact @chainSeg_update_links_eq orders tid o
              { o with shares := o.shares - s } hgeto rfl rfl _ _ _ _ hc
          · rw [List.reverse_append]
            simp
          · intro j hj
            have hjt : j ≠ tid := fun hcon => hj (hcon ▸ htid_mem)
            exact mapGet_insert_ne _ _ _ _ hjt
          · intro hagg
            rw [List.take_length]
            exact aggOk_partial hagg hnd htid_mem hgeto (le_of_lt hlt) rfl rfl rfl rfl
        · -- the oldest order is fully consumed and removed; recurse
          push_neg at hlt
          have hoprev2 : o.prev_order = l2.getLast? := by
            rw [hoprev, lastPtr_none_eq]
          have hlen2 : l2.length ≤ fuel := by
            rw [List.length_append] at hfl
            simp at hfl
            omega
          have hlw2 : l2.length < W64 := by
            rw [List.length_append] at hlw
            simp at hlw
            omega
          have hcount2 : lim.order_count = l2.length + 1 := by
            rw [hcount, List.length_append]
            simp
          by_cases hl2e : l2 = []
          · -- the level becomes empty
            subst hl2e
            have hoprevn : o.prev_order = none := by
              rw [hoprev2]
              rfl
            have hcount1 : lim.order_count = 1 := by
              rw [hcount2]
              rfl
            have hif : (if (none : Option Nat) = none then (none : Option Nat)
                else lim.head_order) = none := rfl
            have hwf1 : wfQueue (mapErase orders tid)
                { lim with
                    tail_order := none
                    head_order := none
                    order_count := sub64 lim.order_count 1
                    size := sub64 lim.size o.shares
                    total_vol := sub64 lim.total_vol (mul64 o.shares lim.limit_price) }
                [] = true := by
              rw [wfQueue_iff]
              refine ⟨?_, rfl, rfl, ?_⟩
              · rw [chainSeg_nil_iff]
              · show sub64 lim.order_count 1 = 0
                rw [hcount1, sub64_eq (le_refl 1) (by rw [W64_eq]; omega)]
            obtain ⟨orders3, lim3, s3, fills3, m3, heq3, hm3, hwf3, ⟨k3, hk3⟩,
              hframe3, hprice3, hagg3⟩ :=
              ih (mapErase orders tid) _ [] (s - o.shares) hwf1
                (Nat.zero_le _) (by rw [W64_eq]; norm_num)
            refine ⟨orders3, lim3, s3, (tid, o.shares) :: fills3, 0, ?_, Nat.zero_le _,
              ?_, ⟨1, ?_⟩, ?_, ?_, ?_⟩
            · simp only [drain_go, if_neg hs, htail, hgeto, if_neg (not_lt.mpr hlt),
                hoprevn, hif, if_true, if_false]
              rw [heq3]
            · simpa using hwf3
            · have hf3 : fills3 = [] := by
                have h0 := hk3
                simp at h0
                exact h0
              subst hf3
              simp
            · intro j hj
              have hjt : j ≠ tid := fun hcon => hj (hcon ▸ htid_mem)
              rw [hframe3 j (by simp), mapGet_erase]
              simp [hjt]
            · rw [hprice3]
            · intro hagg
              have hagg1 : aggOk (mapErase orders tid)
                  { lim with
                      tail_order := none
                      head_order := none
                      order_count := sub64 lim.order_count 1
                      size := sub64 lim.size o.shares
                      total_vol := sub64 lim.total_vol (mul64 o.shares lim.limit_price) }
                  [] = true :=
                aggOk_shrink hagg hgeto (by simp) rfl rfl rfl rfl
              have hres := hagg3 hagg1
              simpa using hres
          · -- the queue keeps at least one younger order
            have hl2ne : l2 ≠ [] := hl2e
            have hglq : l2.getLast? = some (l2.getLast hl2ne) :=
              List.getLast?_eq_getLast l2 hl2ne
            have hglmem : l2.getLast hl2ne ∈ l2 := List.getLast_mem hl2ne
            have hgl_ne_tid : l2.getLast hl2ne ≠ tid :=
              fun hcon => htid_nl2 (hcon ▸ hglmem)
            obtain ⟨po, hpo⟩ := chainSeg_mem_get hglmem hc1
            have hpo1 : mapGet (mapErase orders tid) (l2.getLast hl2ne) = some po := by
              rw [mapGet_erase]
              simp [hgl_ne_tid, hpo]
            have hoprevgl : o.prev_order = some (l2.getLast hl2ne) := by
              rw [hoprev2, hglq]
            have hif2 : (if (some (l2.getLast hl2ne) : Option Nat) = none
                then (none : Option Nat) else lim.head_order) = lim.head_order := rfl
            set orders2 := mapInsert (mapErase orders tid) (l2.getLast hl2ne)
              { po with next_order := none } with horders2
            set lim1 : Limit :=
              { lim with
                  tail_order := some (l2.getLast hl2ne)
                  head_order := lim.head_order
                  order_count := sub64 lim.order_count 1
                  size := sub64 lim.size o.shares
                  total_vol := sub64 lim.total_vol (mul64 o.shares lim.limit_price) }
              with hlim1
            have hshframe : ∀ j ∈ l2, j ≠ l2.getLast hl2ne →
                mapGet orders2 j = mapGet orders j := by
              intro j hj hjl
              rw [horders2, mapGet_insert_ne _ _ _ _ hjl, mapGet_erase]
              have hjt : j ≠ tid := fun hcon => htid_nl2 (hcon ▸ hj)
              simp [hjt]
            have hwf1 : wfQueue orders2 lim1 l2 = true := by
              rw [wfQueue_iff]
              refine ⟨?_, ?_, (nodupB_eq _).mpr hnd2, ?_⟩
              · show chainSeg orders2 none lim.head_order l2 none = true
                refine chainSeg_retarget_last none l2 hl2ne hc1
                  ((nodupB_eq _).mpr hnd2) hshframe ?_
                intro po2 hpo2
                rw [hpo] at hpo2
                injection hpo2 with hpo2
                subst hpo2
                rw [horders2]
                exact mapGet_insert_self _ _ _
              · show (some (l2.getLast hl2ne) : Option Nat) = l2.getLast?
                rw [hglq]
              · show sub64 lim.order_count 1 = l2.length
                rw [hcount2, sub64_eq (by omega) (by omega)]
                simp
            obtain ⟨orders3, lim3, s3, fills3, m3, heq3, hm3, hwf3, ⟨k3, hk3⟩,
              hframe3, hprice3, hagg3⟩ :=
              ih orders2 lim1 l2 (s - o.shares) hwf1 hlen2 hlw2
            refine ⟨orders3, lim3, s3, (tid, o.shares) :: fills3, m3, ?_,
              le_trans hm3 (by rw [List.length_append]; exact Nat.le_add_right _ _),
              ?_, ⟨k3 + 1, ?_⟩, ?_, ?_, ?_⟩
            · simp only [drain_go, if_neg hs, htail, hgeto, if_neg (not_lt.mpr hlt),
                hoprevgl, hpo1, hif2, if_true, if_false]
              rw [← horders2, heq3]
            · rw [List.take_append_of_le_length hm3]
              exact hwf3
            · rw [List.reverse_append]
              simp only [List.reverse_singleton, List.singleton_append,
                List.map_cons, List.take_succ_cons, hk3]
            · intro j hj
              have hjl2 : j ∉ l2 := fun hcon => hj (List.mem_append_left _ hcon)
              have hjt : j ≠ tid := fun hcon => hj (hcon ▸ htid_mem)
              have hjgl : j ≠ l2.getLast hl2ne := fun hcon => hjl2 (hcon ▸ hglmem)
              rw [hframe3 j hjl2, horders2, mapGet_insert_ne _ _ _ _ hjgl, mapGet_erase]
              simp [hjt]
            · rw [hprice3, hlim1]
            · intro hagg
              rw [List.take_append_of_le_length hm3]
              refine hagg3 ?_
              refine aggOk_shrink hagg hgeto ?_ rfl rfl rfl rfl
              intro j hj
              by_cases hjl : j = l2.getLast hl2ne
              · subst hjl
                rw [sharesOf_eq hpo]
                rw [horders2] at *
                rw [sharesOf_eq (mapGet_insert_self _ _ _)]
              · rw [sharesOf, sharesOf, hshframe j hj hjl]

/-! ## Claim C9: submit followed by immediate cancel restores the book -/

/-- C9: For a well-formed book with a registered, non-empty level at the
order's price and a fresh order id, submitting the order through `add_order`
and then immediately cancelling it (no intervening match) returns the very
same book: order arena, level arena, lookup map and tree roots are all
restored (the model has no tree shape, which the claim excludes anyway). -/
theorem c9_submit_cancel_roundtrip
    (ob : OrderBook) (o : Order) (lid : Nat) (lim : Limit) (h0 : Nat) (ho0 : Order)
    (hlk : mapGet ob.limits_lookup_map o.limit = some lid)
    (hlim : mapGet ob.limits_ownership_map lid = some lim)
    (hhead : lim.head_order = some h0)
    (hget0 : mapGet ob.orders_ownership_map h0 = some ho0)
    (hprev0 : ho0.prev_order = none)
    (hfresh : mapGet ob.orders_ownership_map o.order_id = none)
    (hbs : lim.size < W64) (hbv : lim.total_vol < W64) (hbc : lim.order_count < W64) :
    (add_order ob o).bind (fun ob2 => cancel_order ob2 o.order_id) = some ob := by
  have hne : h0 ≠ o.order_id := by
    intro hcon
    rw [hcon, hfresh] at hget0
    cases hget0
  have hne' : o.order_id ≠ h0 := fun hcon => hne hcon.symm
  have hadd : add_order ob o = some
      { ob with
          orders_ownership_map :=
            mapInsert (mapInsert ob.orders_ownership_map h0
              { ho0 with prev_order := some o.order_id }) o.order_id
              { o with parent_limit := some lid, next_order := some h0,
                       prev_order := none }
          limits_ownership_map :=
            mapInsert ob.limits_ownership_map lid
              { lim with
                  head_order := some o.order_id
                  order_count := add64 lim.order_count 1
                  size := add64 lim.size o.shares
                  total_vol := add64 lim.total_vol (mul64 o.shares lim.limit_price) } } := by
    simp only [add_order, hlk, hlim, hhead, hget0]
  rw [hadd, Option.some_bind]
  have hfresh1 : mapGet (mapInsert ob.orders_ownership_map h0
      { ho0 with prev_order := some o.order_id }) o.order_id = none := by
    rw [mapGet_insert_ne _ _ _ _ hne']
    exact hfresh
  have g1 : mapGet (mapInsert (mapInsert ob.orders_ownership_map h0
      { ho0 with prev_order := some o.order_id }) o.order_id
      { o with parent_limit := some lid, next_order := some h0,
               prev_order := none }) o.order_id =
      some { o with parent_limit := some lid, next_order := some h0,
                    prev_order := none } := mapGet_insert_self _ _ _
  have g2 : mapGet (mapInsert ob.limits_ownership_map lid
      { lim with
          head_order := some o.order_id
          order_count := add64 lim.order_count 1
          size := add64 lim.size o.shares
          total_vol := add64 lim.total_vol (mul64 o.shares lim.limit_price) }) lid =
      some { lim with
          head_order := some o.order_id
          order_count := add64 lim.order_count 1
          size := add64 lim.size o.shares
          total_vol := add64 lim.total_vol (mul64 o.shares lim.limit_price) } :=
    mapGet_insert_self _ _ _
  have g3 : mapErase (mapInsert (mapInsert ob.orders_ownership_map h0
      { ho0 with prev_order := some o.order_id }) o.order_id
      { o with parent_limit := some lid, next_order := some h0,
               prev_order := none }) o.order_id =
      mapInsert ob.orders_ownership_map h0
        { ho0 with prev_order := some o.order_id } :=
    mapErase_insert_fresh _ _ _ hfresh1
  have g4get : mapGet (mapInsert ob.orders_ownership_map h0
      { ho0 with prev_order := some o.order_id }) h0 =
      some { ho0 with prev_order := some o.order_id } := mapGet_insert_self _ _ _
  have hho0eta : { ho0 with prev_order := (none : Option Nat) } = ho0 := by
    rw [← hprev0]
  have g4 : mapInsert (mapInsert ob.orders_ownership_map h0
      { ho0 with prev_order := some o.order_id }) h0
      { ho0 with prev_order := (none : Option Nat) } =
      ob.orders_ownership_map := by
    rw [mapInsert_insert, hho0eta]
    exact mapInsert_get_self _ _ _ hget0
  have g5 : ({ lim with
      head_order := some h0
      tail_order := lim.tail_order
      order_count := sub64 (add64 lim.order_count 1) 1
      size := sub64 (add64 lim.size o.shares) o.shares
      total_vol := sub64 (add64 lim.total_vol (mul64 o.shares lim.limit_price))
        (mul64 o.shares lim.limit_price) } : Limit) = lim := by
    rw [sub64_add64 _ hbc, sub64_add64 _ hbs, sub64_add64 _ hbv, ← hhead]
  have g6 : mapInsert (mapInsert ob.limits_ownership_map lid
      { lim with
          head_order := some o.order_id
          order_count := add64 lim.order_count 1
          size := add64 lim.size o.shares
          total_vol := add64 lim.total_vol (mul64 o.shares lim.limit_price) }) lid lim =
      ob.limits_ownership_map := by
    rw [mapInsert_insert]
    exact mapInsert_get_self _ _ _ hlim
  simp only [cancel_order, g1, g2, g3, g4get]
  rw [if_neg (Option.some_ne_none h0), g4, g5, g6]

/-! ## Claim C10: submissions at an unregistered price are silently dropped -/

/-- C10: when the order's limit price has no entry in `limits_lookup_map`,
`add_order` returns with the whole book — order arena, level arena, lookup
map, tree roots — unchanged: the order is silently lost. -/
theorem c10_unknown_price_dropped (ob : OrderBook) (o : Order)
    (h : mapGet ob.limits_lookup_map o.limit = none) :
    add_order ob o = some ob := by
  simp only [add_order, h]

theorem c10_unknown_price_dropped_witness :
    add_order demoBook
      { order_id := 7, is_buy := false, shares := 3, limit := 999,
        next_order := none, prev_order := none, parent_limit := none } =
      some demoBook :=
  c10_unknown_price_dropped demoBook _ (by decide)

/-! ## Claim C4: queue direction (corrected) -/

/-- C4 counterexample: the claim says the newest order becomes the tail and
the head is dequeued first.  On the code, submitting order 2 to a level that
rests order 1 makes order 2 the HEAD (and order 1 stays the tail), so the
newest order is the head, not the tail. -/
theorem c4_queue_direction_cex :
    levelEnds (add_order demoBook
      { order_id := 2, is_buy := true, shares := 3, limit := 100,
        next_order := none, prev_order := none, parent_limit := none }) 1 =
      some (some 2, some 1) ∧ (some 2 : Option Nat) ≠ some 1 := by
  decide

/-- C4 amended: `add_order` prepends the newest order at the HEAD of its
level's queue (its `next_order` pointing at the previous head), leaving the
tail — the oldest order — in place, and matching dequeues from the TAIL
first: one drain iteration always fills against the order at `tail_order`. -/
theorem c4_queue_direction_amended :
    (∀ (ob : OrderBook) (o : Order) (lid : Nat) (lim : Limit) (ob2 : OrderBook),
      mapGet ob.limits_lookup_map o.limit = some lid →
      mapGet ob.limits_ownership_map lid = some lim →
      add_order ob o = some ob2 →
      ∃ lim1, mapGet ob2.limits_ownership_map lid = some lim1 ∧
        lim1.head_order = some o.order_id ∧
        (∀ hid, lim.head_order = some hid → lim1.tail_order = lim.tail_order) ∧
        (lim.head_order = none → lim1.tail_order = some o.order_id) ∧
        mapGet ob2.orders_ownership_map o.order_id =
          some { o with parent_limit := some lid, next_order := lim.head_order,
                        prev_order := none }) ∧
    (∀ (orders : List (Nat × Order)) (lim : Limit) (s tid fuel : Nat) (o : Order),
      s ≠ 0 → lim.tail_order = some tid → mapGet orders tid = some o →
      ∃ rest, (drain_go orders lim s (fuel + 1)).2.2.2 =
        (tid, min s o.shares) :: rest) := by
  constructor
  · intro ob o lid lim ob2 hlk hlim heq
    obtain ⟨lim1, hlim1, h1h, h1t, -, -, -, -, hstore, -⟩ :=
      add_order_post ob o lid lim ob2 hlk hlim heq
    refine ⟨lim1, hlim1, h1h, ?_, ?_, hstore⟩
    · intro hid hh
      rw [h1t, hh]
    · intro hh
      rw [h1t, hh]
  · intro orders lim s tid fuel o hs htail hget
    by_cases hlt : s < o.shares
    · refine ⟨[], ?_⟩
      simp only [drain_go, if_neg hs, htail, hget, if_pos hlt]
      rw [Nat.min_eq_left (le_of_lt hlt)]
    · simp only [drain_go, if_neg hs, htail, hget, if_neg hlt]
      rw [Nat.min_eq_right (not_lt.mp hlt)]
      exact ⟨_, rfl⟩

theorem c4_queue_direction_witness :
    (∃ lim1, mapGet
        (mapInsert demoBook.limits_ownership_map 1
          { demoLim with
              head_order := some 2
              order_count := add64 demoLim.order_count 1
              size := add64 demoLim.size 3
              total_vol := add64 demoLim.total_vol (mul64 3 demoLim.limit_price) })
        1 = some lim1 ∧ lim1.head_order = some 2) ∧
    (∃ rest, (drain_go demoBook.orders_ownership_map demoLim 2 1).2.2.2 =
      (1, min 2 5) :: rest) := by
  constructor
  · obtain ⟨lim1, hlim1, h1h, -, -, -⟩ :=
      c4_queue_direction_amended.1 demoBook
        { order_id := 2, is_buy := true, shares := 3, limit := 100,
          next_order := none, prev_order := none, parent_limit := none }
        1 demoLim _ (by decide) (by decide) rfl
    exact ⟨lim1, hlim1, h1h⟩
  · exact c4_queue_direction_amended.2 demoBook.orders_ownership_map demoLim 2 1 0
      demoOrd (by decide) (by decide) (by decide)

/-! ## Claim C5: zero-shares orders are not rejected (corrected) -/

/-- C5 counterexample: the claim says an order with `shares == 0` is
rejected with `InvalidOrder` before any mutation, book unchanged.  The code
has no validation at all: at a registered price the zero-share order is
inserted and the book changes (no error value even exists —
`add_order` cannot report failure). -/
theorem c5_zero_shares_cex :
    (add_order demoBook
      { order_id := 2, is_buy := true, shares := 0, limit := 100,
        next_order := none, prev_order := none, parent_limit := none }).isSome = true ∧
    add_order demoBook
      { order_id := 2, is_buy := true, shares := 0, limit := 100,
        next_order := none, prev_order := none, parent_limit := none } ≠
      some demoBook := by
  decide

/-- C5 amended: `add_order` performs no shares validation.  A zero-share
order at a registered price is stored in the arena and appended to the
queue — `order_count` increments while `size` and `total_vol` stay put —
and at an unregistered price it is silently dropped; no `InvalidOrder`
error exists in the code. -/
theorem c5_zero_shares_amended
    (ob : OrderBook) (o : Order) (lid : Nat) (lim : Limit)
    (hsh : o.shares = 0)
    (hlk : mapGet ob.limits_lookup_map o.limit = some lid)
    (hlim : mapGet ob.limits_ownership_map lid = some lim)
    (hhead : ∀ hid, lim.head_order = some hid →
      ∃ ho, mapGet ob.orders_ownership_map hid = some ho)
    (hbs : lim.size < W64) (hbv : lim.total_vol < W64) :
    ∃ ob2 lim1, add_order ob o = some ob2 ∧
      mapGet ob2.orders_ownership_map o.order_id =
        some { o with parent_limit := some lid, next_order := lim.head_order,
                      prev_order := none } ∧
      mapGet ob2.limits_ownership_map lid = some lim1 ∧
      lim1.order_count = add64 lim.order_count 1 ∧
      lim1.size = lim.size ∧ lim1.total_vol = lim.total_vol := by
  obtain ⟨ob2, heq⟩ := add_order_succ ob o lid lim hlk hlim hhead
  obtain ⟨lim1, hlim1, -, -, h1c, h1s, h1v, -, hstore, -⟩ :=
    add_order_post ob o lid lim ob2 hlk hlim heq
  refine ⟨ob2, lim1, heq, hstore, hlim1, h1c, ?_, ?_⟩
  · rw [h1s, hsh]
    exact add64_eq (by omega)
  · rw [h1v, hsh]
    have : mul64 0 lim.limit_price = 0 := by
      unfold mul64
      simp
    rw [this]
    exact add64_eq (by omega)

theorem c5_zero_shares_witness :
    ∃ ob2 lim1, add_order demoBook
      { order_id := 2, is_buy := true, shares := 0, limit := 100,
        next_order := none, prev_order := none, parent_limit := none } = some ob2 ∧
      mapGet ob2.orders_ownership_map 2 =
        some { order_id := 2, is_buy := true, shares := 0, limit := 100,
               next_order := some 1, prev_order := none, parent_limit := some 1 } ∧
      mapGet ob2.limits_ownership_map 1 = some lim1 ∧
      lim1.order_count = add64 demoLim.order_count 1 ∧
      lim1.size = demoLim.size ∧ lim1.total_vol = demoLim.total_vol :=
  c5_zero_shares_amended demoBook _ 1 demoLim rfl (by decide) (by decide)
    (fun hid hh => ⟨demoOrd, by
      have : hid = 1 := by
        have hh2 : (some 1 : Option Nat) = some hid := hh
        injection hh2 with hh2
        exact hh2.symm
      rw [this]
      decide⟩)
    (by decide) (by decide)

/-! ## Claim C6: duplicate live ids are not rejected (corrected) -/

/-- C6 counterexample: the claim says a submit reusing a live id is rejected
with `DuplicateOrderId` and the book is unchanged.  The code never checks:
resubmitting live id 1 OVERWRITES the live order's arena record (via
`HashMap::insert`) and still bumps the level's aggregates, and the book
changes. -/
theorem c6_duplicate_id_cex :
    (add_order demoBook
      { order_id := 1, is_buy := false, shares := 9, limit := 100,
        next_order := none, prev_order := none, parent_limit := none }).bind
      (fun b => mapGet b.orders_ownership_map 1) =
      some { order_id := 1, is_buy := false, shares := 9, limit := 100,
             next_order := some 1, prev_order := none, parent_limit := some 1 } ∧
    (some { order_id := 1, is_buy := false, shares := 9, limit := 100,
            next_order := some 1, prev_order := none, parent_limit := some 1 } :
      Option Order) ≠ some demoOrd ∧
    add_order demoBook
      { order_id := 1, is_buy := false, shares := 9, limit := 100,
        next_order := none, prev_order := none, parent_limit := none } ≠
      some demoBook := by
  decide

/-- C6 amended: `add_order` performs no duplicate-id check.  Submitting an
order whose id is already live replaces the arena record stored under that
id with the new order's record, while the level's `order_count` is still
incremented — the old live record is destroyed, not protected. -/
theorem c6_duplicate_id_amended
    (ob : OrderBook) (o : Order) (lid : Nat) (lim : Limit) (oldRec : Order)
    (hlk : mapGet ob.limits_lookup_map o.limit = some lid)
    (hlim : mapGet ob.limits_ownership_map lid = some lim)
    (hhead : ∀ hid, lim.head_order = some hid →
      ∃ ho, mapGet ob.orders_ownership_map hid = some ho)
    (_hlive : mapGet ob.orders_ownership_map o.order_id = some oldRec) :
    ∃ ob2 lim1, add_order ob o = some ob2 ∧
      mapGet ob2.orders_ownership_map o.order_id =
        some { o with parent_limit := some lid, next_order := lim.head_order,
                      prev_order := none } ∧
      mapGet ob2.limits_ownership_map lid = some lim1 ∧
      lim1.order_count = add64 lim.order_count 1 := by
  obtain ⟨ob2, heq⟩ := add_order_succ ob o lid lim hlk hlim hhead
  obtain ⟨lim1, hlim1, -, -, h1c, -, -, -, hstore, -⟩ :=
    add_order_post ob o lid lim ob2 hlk hlim heq
  exact ⟨ob2, lim1, heq, hstore, hlim1, h1c⟩

theorem c6_duplicate_id_witness :
    ∃ ob2 lim1, add_order demoBook
      { order_id := 1, is_buy := false, shares := 9, limit := 100,
        next_order := none, prev_order := none, parent_limit := none } = some ob2 ∧
      mapGet ob2.orders_ownership_map 1 =
        some { order_id := 1, is_buy := false, shares := 9, limit := 100,
               next_order := some 1, prev_order := none, parent_limit := some 1 } ∧
      mapGet ob2.limits_ownership_map 1 = some lim1 ∧
      lim1.order_count = add64 demoLim.order_count 1 :=
  c6_duplicate_id_amended demoBook _ 1 demoLim demoOrd (by decide) (by decide)
    (fun hid hh => ⟨demoOrd, by
      have hh2 : (some 1 : Option Nat) = some hid := hh
      injection hh2 with hh2
      rw [← hh2]
      decide⟩)
    (by decide)

/-! ## Claim C7: aggregate arithmetic wraps silently (corrected) -/

/-- C7 counterexample: the claim says the `total_notional` update never
silently wraps and overflowing operations fail fast with an `Overflow`
error, book unchanged.  Starting from the consistent book `ovBook`
(price `2 ^ 32`, 1 share, notional `2 ^ 32`), adding a `2 ^ 32`-share order
at that price succeeds, changes the book, and stores
`total_vol = 2 ^ 32` — the product `2 ^ 32 * 2 ^ 32 = 2 ^ 64` wrapped to 0
— instead of the true `2 ^ 32 + 2 ^ 64`; no error is reported. -/
theorem c7_overflow_cex :
    (add_order ovBook ovNew).bind
      (fun b => (mapGet b.limits_ownership_map 1).map Limit.total_vol) =
      some 4294967296 ∧
    (add_order ovBook ovNew).isSome = true ∧
    add_order ovBook ovNew ≠ some ovBook ∧
    (4294967296 : Nat) ≠ 4294967296 + 4294967296 * 4294967296 := by
  decide

/-- C7 amended: the level-aggregate update of `add_order` is performed with
plain u64 arithmetic that wraps modulo `2 ^ 64` (`add64`/`mul64`); the
operation always goes through, no `Overflow` error exists, and the book is
mutated even when `shares * price` exceeds the u64 range. -/
theorem c7_overflow_amended
    (ob : OrderBook) (o : Order) (lid : Nat) (lim : Limit)
    (hlk : mapGet ob.limits_lookup_map o.limit = some lid)
    (hlim : mapGet ob.limits_ownership_map lid = some lim)
    (hhead : ∀ hid, lim.head_order = some hid →
      ∃ ho, mapGet ob.orders_ownership_map hid = some ho) :
    ∃ ob2 lim1, add_order ob o = some ob2 ∧
      mapGet ob2.limits_ownership_map lid = some lim1 ∧
      lim1.total_vol = (lim.total_vol + o.shares * lim.limit_price % W64) % W64 ∧
      lim1.size = (lim.size + o.shares) % W64 := by
  obtain ⟨ob2, heq⟩ := add_order_succ ob o lid lim hlk hlim hhead
  obtain ⟨lim1, hlim1, -, -, -, h1s, h1v, -, -, -⟩ :=
    add_order_post ob o lid lim ob2 hlk hlim heq
  exact ⟨ob2, lim1, heq, hlim1, h1v, h1s⟩

theorem c7_overflow_witness :
    ∃ ob2 lim1, add_order ovBook ovNew = some ob2 ∧
      mapGet ob2.limits_ownership_map 1 = some lim1 ∧
      lim1.total_vol = (ovLim.total_vol + ovNew.shares * ovLim.limit_price % W64) % W64 ∧
      lim1.size = (ovLim.size + ovNew.shares) % W64 :=
  c7_overflow_amended ovBook ovNew 1 ovLim (by decide) (by decide)
    (fun hid hh => ⟨ovOrd, by
      have hh2 : (some 1 : Option Nat) = some hid := hh
      injection hh2 with hh2
      rw [← hh2]
      decide⟩)

/-! ## Claim C8: the lookup map is shared by both sides (corrected) -/

/-- C8 counterexample: the claim says a sell at price P never joins an
existing buy level at P.  `limits_lookup_map` is keyed by price alone:
submitting a SELL at price 100 into `demoBook` appends it to the very level
that owns the resting BUY order (both records end up with
`parent_limit = some 1`). -/
theorem c8_side_separation_cex :
    (add_order demoBook
      { order_id := 2, is_buy := false, shares := 3, limit := 100,
        next_order := none, prev_order := none, parent_limit := none }).bind
      (fun b => (mapGet b.orders_ownership_map 2).map Order.parent_limit) =
      some (some 1) ∧
    (add_order demoBook
      { order_id := 2, is_buy := false, shares := 3, limit := 100,
        next_order := none, prev_order := none, parent_limit := none }).bind
      (fun b => (mapGet b.orders_ownership_map 1).map Order.parent_limit) =
      some (some 1) ∧
    demoOrd.is_buy = true := by
  decide

/-- C8 amended: level routing ignores the side entirely: whatever its
`is_buy` flag, an order whose price is mapped to level `lid` by the shared
price-keyed `limits_lookup_map` is appended to that same level. -/
theorem c8_side_separation_amended
    (ob : OrderBook) (o : Order) (lid : Nat) (lim : Limit)
    (hlk : mapGet ob.limits_lookup_map o.limit = some lid)
    (hlim : mapGet ob.limits_ownership_map lid = some lim)
    (hhead : ∀ hid, lim.head_order = some hid →
      ∃ ho, mapGet ob.orders_ownership_map hid = some ho) :
    ∀ b : Bool, ∃ ob2, add_order ob { o with is_buy := b } = some ob2 ∧
      mapGet ob2.orders_ownership_map o.order_id =
        some { o with is_buy := b, parent_limit := some lid,
                      next_order := lim.head_order, prev_order := none } := by
  intro b
  obtain ⟨ob2, heq⟩ := add_order_succ ob { o with is_buy := b } lid lim hlk hlim hhead
  obtain ⟨lim1, -, -, -, -, -, -, -, hstore, -⟩ :=
    add_order_post ob { o with is_buy := b } lid lim ob2 hlk hlim heq
  exact ⟨ob2, heq, hstore⟩

theorem c8_side_separation_witness :
    (∃ ob2, add_order demoBook
      { order_id := 2, is_buy := true, shares := 3, limit := 100,
        next_order := none, prev_order := none, parent_limit := none } = some ob2 ∧
      mapGet ob2.orders_ownership_map 2 =
        some { order_id := 2, is_buy := true, shares := 3, limit := 100,
               next_order := some 1, prev_order := none, parent_limit := some 1 }) ∧
    (∃ ob2, add_order demoBook
      { order_id := 2, is_buy := false, shares := 3, limit := 100,
        next_order := none, prev_order := none, parent_limit := none } = some ob2 ∧
      mapGet ob2.orders_ownership_map 2 =
        some { order_id := 2, is_buy := false, shares := 3, limit := 100,
               next_order := some 1, prev_order := none, parent_limit := some 1 }) :=
  ⟨c8_side_separation_amended demoBook
    { order_id := 2, is_buy := true, shares := 3, limit := 100,
      next_order := none, prev_order := none, parent_limit := none }
    1 demoLim (by decide) (by decide)
    (fun hid hh => ⟨demoOrd, by
      have hh2 : (some 1 : Option Nat) = some hid := hh
      injection hh2 with hh2
      rw [← hh2]
      decide⟩) true,
   c8_side_separation_amended demoBook
    { order_id := 2, is_buy := true, shares := 3, limit := 100,
      next_order := none, prev_order := none, parent_limit := none }
    1 demoLim (by decide) (by decide)
    (fun hid hh => ⟨demoOrd, by
      have hh2 : (some 1 : Option Nat) = some hid := hh
      injection hh2 with hh2
      rw [← hh2]
      decide⟩) false⟩

/-! ## Claim C3: one drain iteration (spec-modelled matching step) -/

/-- C3: one iteration of the level drain.  With `shares_remaining > 0` and
the oldest resting order `o` at the tail: if `o.shares > shares_remaining`,
`o`'s shares are decremented by exactly `shares_remaining`, the remainder
becomes 0, and no order leaves the queue or the arena; otherwise `o` is
fully consumed — the remainder drops by `o.shares` and the order is removed
from both the arena (its id no longer resolves) and the queue (the tail
advances to `o.prev_order`; if that is `none` the queue becomes empty with
`head = tail = none`). -/
theorem c3_drain_step
    (orders : List (Nat × Order)) (lim : Limit) (s tid fuel : Nat) (o : Order)
    (hs : 0 < s)
    (htail : lim.tail_order = some tid)
    (hget : mapGet orders tid = some o)
    (hnoloop : o.prev_order ≠ some tid) :
    (s < o.shares →
      drain_go orders lim s (fuel + 1) =
        (mapInsert orders tid { o with shares := o.shares - s },
         { lim with
             size := sub64 lim.size s
             total_vol := sub64 lim.total_vol (mul64 s lim.limit_price) },
         0, [(tid, s)]) ∧
      mapGet (mapInsert orders tid { o with shares := o.shares - s }) tid =
        some { o with shares := o.shares - s }) ∧
    (o.shares ≤ s →
      ∃ orders2 lim1,
        drain_go orders lim s (fuel + 1) =
          ((drain_go orders2 lim1 (s - o.shares) fuel).1,
           (drain_go orders2 lim1 (s - o.shares) fuel).2.1,
           (drain_go orders2 lim1 (s - o.shares) fuel).2.2.1,
           (tid, o.shares) :: (drain_go orders2 lim1 (s - o.shares) fuel).2.2.2) ∧
        mapGet orders2 tid = none ∧
        lim1.tail_order = o.prev_order ∧
        (o.prev_order = none → lim1.head_order = none) ∧
        lim1.order_count = sub64 lim.order_count 1 ∧
        lim1.size = sub64 lim.size o.shares) := by
  have hs0 : ¬(s = 0) := by omega
  constructor
  · intro hlt
    constructor
    · simp only [drain_go, if_neg hs0, htail, hget, if_pos hlt]
    · exact mapGet_insert_self _ _ _
  · intro hle
    have hnlt : ¬(s < o.shares) := by omega
    cases hprev : o.prev_order with
    | none =>
      refine ⟨mapErase orders tid,
        { lim with
            tail_order := none
            head_order := none
            order_count := sub64 lim.order_count 1
            size := sub64 lim.size o.shares
            total_vol := sub64 lim.total_vol (mul64 o.shares lim.limit_price) },
        ?_, ?_, rfl, fun _ => rfl, rfl, rfl⟩
      · simp only [drain_go, if_neg hs0, htail, hget, if_neg hnlt, hprev, if_true,
          if_false]
      · rw [mapGet_erase]
        simp
    | some p =>
      have hptid : p ≠ tid := by
        intro hcon
        rw [hcon] at hprev
        exact hnoloop hprev
      have hifp : (if (some p : Option Nat) = none then (none : Option Nat)
          else lim.head_order) = lim.head_order := rfl
      cases hgp : mapGet (mapErase orders tid) p with
      | none =>
        refine ⟨mapErase orders tid,
          { lim with
              tail_order := some p
              head_order := lim.head_order
              order_count := sub64 lim.order_count 1
              size := sub64 lim.size o.shares
              total_vol := sub64 lim.total_vol (mul64 o.shares lim.limit_price) },
          ?_, ?_, rfl, fun hcon => Option.noConfusion hcon, rfl, rfl⟩
        · simp only [drain_go, if_neg hs0, htail, hget, if_neg hnlt, hprev, hgp,
            hifp, if_true, if_false]
        · rw [mapGet_erase]
          simp
      | some po =>
        refine ⟨mapInsert (mapErase orders tid) p { po with next_order := none },
          { lim with
              tail_order := some p
              head_order := lim.head_order
              order_count := sub64 lim.order_count 1
              size := sub64 lim.size o.shares
              total_vol := sub64 lim.total_vol (mul64 o.shares lim.limit_price) },
          ?_, ?_, rfl, fun hcon => Option.noConfusion hcon, rfl, rfl⟩
        · simp only [drain_go, if_neg hs0, htail, hget, if_neg hnlt, hprev, hgp,
            hifp, if_true, if_false]
        · rw [mapGet_insert_ne _ _ _ _ (fun hcon : tid = p => hptid hcon.symm),
            mapGet_erase]
          simp

theorem c3_drain_step_witness :
    ((2 < demoOrd.shares →
      drain_go demoBook.orders_ownership_map demoLim 2 1 =
        (mapInsert demoBook.orders_ownership_map 1
          { demoOrd with shares := demoOrd.shares - 2 },
         { demoLim with
             size := sub64 demoLim.size 2
             total_vol := sub64 demoLim.total_vol (mul64 2 demoLim.limit_price) },
         0, [(1, 2)]) ∧
      mapGet (mapInsert demoBook.orders_ownership_map 1
        { demoOrd with shares := demoOrd.shares - 2 }) 1 =
        some { demoOrd with shares := demoOrd.shares - 2 }) ∧
    (demoOrd.shares ≤ 2 →
      ∃ orders2 lim1,
        drain_go demoBook.orders_ownership_map demoLim 2 1 =
          ((drain_go orders2 lim1 (2 - demoOrd.shares) 0).1,
           (drain_go orders2 lim1 (2 - demoOrd.shares) 0).2.1,
           (drain_go orders2 lim1 (2 - demoOrd.shares) 0).2.2.1,
           (1, demoOrd.shares) :: (drain_go orders2 lim1 (2 - demoOrd.shares) 0).2.2.2) ∧
        mapGet orders2 1 = none ∧
        lim1.tail_order = demoOrd.prev_order ∧
        (demoOrd.prev_order = none → lim1.head_order = none) ∧
        lim1.order_count = sub64 demoLim.order_count 1 ∧
        lim1.size = sub64 demoLim.size demoOrd.shares)) :=
  c3_drain_step demoBook.orders_ownership_map demoLim 2 1 0 demoOrd
    (by decide) (by decide) (by decide) (by decide)

/-! ## Claim C1: FIFO within a price level -/

/-- C1: FIFO within a level.  Submit any batch of fresh orders (arbitrarily
interleaving prices) into a well-formed book.  For the level registered at
price `p`: (a) the oldest-first ordering of its queue afterwards is the old
oldest-first ordering followed by exactly the batch's orders routed to this
level, in submission order; (b) draining the level consumes an initial
segment of that oldest-first sequence — so fills consume orders of one
price in submission order, oldest first, regardless of interleaving. -/
theorem c1_fifo_within_level
    (ob : OrderBook) (ql : Nat → List Nat) (os : List Order) (p lid : Nat)
    (hwf : bookWfS ob ql = true)
    (hfresh : ∀ o ∈ os, mapGet ob.orders_ownership_map o.order_id = none)
    (hnd : nodupB (os.map Order.order_id) = true)
    (hlen : ∀ x, (ql x).length + os.length < W64)
    (hp : mapGet ob.limits_lookup_map p = some lid) :
    ∃ ob2 lim2,
      submitAll ob os = some ob2 ∧
      mapGet ob2.limits_ownership_map lid = some lim2 ∧
      (qlSubmit ob.limits_lookup_map ql os lid).reverse =
        (ql lid).reverse ++
          (os.filter (fun o => mapGet ob.limits_lookup_map o.limit == some lid)).map
            Order.order_id ∧
      wfQueue ob2.orders_ownership_map lim2
        (qlSubmit ob.limits_lookup_map ql os lid) = true ∧
      (∀ s, ∃ k,
        ((drain_limit ob2.orders_ownership_map lim2 s).2.2.2.2).map Prod.fst =
          ((qlSubmit ob.limits_lookup_map ql os lid).reverse).take k) := by
  obtain ⟨ob2, hsub, hlkeq, hwf2⟩ := submitAll_bookWfS os ob ql hwf hfresh hnd hlen
  obtain ⟨lim2, hlim2, hprice2, hwfq2⟩ :=
    bookWfS_level hwf2 (p := p) (by rw [hlkeq]; exact hp)
  refine ⟨ob2, lim2, hsub, hlim2, ?_, hwfq2, ?_⟩
  · rw [qlSubmit]
    simp [List.reverse_append, List.reverse_reverse]
  · intro s
    have hwfi := (wfQueue_iff _ _ _).mp hwfq2
    have hlenq : (qlSubmit ob.limits_lookup_map ql os lid).length < W64 := by
      rw [qlSubmit, List.length_append, List.length_reverse, List.length_map]
      have h1 := List.length_filter_le
        (fun o => mapGet ob.limits_lookup_map o.limit == some lid) os
      have h2 := hlen lid
      omega
    obtain ⟨orders3, lim3, s3, fills, m, heq, hm, hwf3, ⟨k, hk⟩, -, -, -⟩ :=
      drain_go_spec lim2.order_count ob2.orders_ownership_map lim2
        (qlSubmit ob.limits_lookup_map ql os lid) s hwfq2
        (le_of_eq hwfi.2.2.2.symm) hlenq
    refine ⟨k, ?_⟩
    show (drain_go ob2.orders_ownership_map lim2 s lim2.order_count).2.2.2.map
      Prod.fst = _
    rw [heq]
    exact hk

/-! ## Replacing or deleting one level while preserving full well-formedness -/

theorem pairwiseDisj_shrink
    (L : List (Nat × Nat)) (ql : Nat → List Nat) (lid : Nat) (newl : List Nat)
    (hpd : pairwiseDisj (L.map fun e => ql e.2) = true)
    (hsub : ∀ x ∈ newl, x ∈ ql lid)
    (hcnt : L.countP (fun e => e.2 == lid) ≤ 1) :
    pairwiseDisj (L.map fun e => if e.2 = lid then newl else ql e.2) = true := by
  induction L with
  | nil => simp [pairwiseDisj]
  | cons e0 L2 ih =>
    rw [List.map_cons, pairwiseDisj_cons_iff]
    rw [List.map_cons, pairwiseDisj_cons_iff] at hpd
    by_cases he0 : e0.2 = lid
    · have hz : L2.countP (fun e => e.2 == lid) = 0 := by
        rw [List.countP_cons] at hcnt
        simp only [he0, beq_self_eq_true, if_true] at hcnt
        omega
      have hnol : ∀ e ∈ L2, ¬(e.2 = lid) := by
        rw [List.countP_eq_zero] at hz
        intro e he
        simpa using hz e he
      have hmapeq : (L2.map fun e => if e.2 = lid then newl else ql e.2) =
          L2.map (fun e => ql e.2) :=
        List.map_congr_left (fun e he => by rw [if_neg (hnol e he)])
      rw [if_pos he0, hmapeq]
      refine ⟨?_, hpd.2⟩
      intro l2 hl2
      obtain ⟨e, he, rfl⟩ := List.mem_map.mp hl2
      rw [disjointB_iff]
      intro x hx
      have hd := hpd.1 (ql e.2) (List.mem_map_of_mem _ he)
      rw [disjointB_iff] at hd
      exact hd x (he0 ▸ hsub x hx)
    · rw [if_neg he0]
      have hcnt' : L2.countP (fun e => e.2 == lid) ≤ 1 := by
        rw [List.countP_cons] at hcnt
        have hb : (e0.2 == lid) = false := by simpa using he0
        rw [hb] at hcnt
        simpa using Nat.le_trans (Nat.le_add_right _ _) hcnt
      refine ⟨?_, ih hpd.2 hcnt'⟩
      intro l2 hl2
      obtain ⟨e, he, rfl⟩ := List.mem_map.mp hl2
      by_cases hel : e.2 = lid
      · rw [if_pos hel, disjointB_iff]
        intro x hx hmem
        have hd := hpd.1 (ql e.2) (List.mem_map_of_mem _ he)
        rw [disjointB_iff] at hd
        exact hd x hx (hel ▸ hsub x hmem)
      · rw [if_neg hel]
        exact hpd.1 (ql e.2) (List.mem_map_of_mem _ he)

theorem keysNodup_erase {α : Type} (m : List (Nat × α)) (k : Nat)
    (h : keysNodup m = true) : keysNodup (mapErase m k) = true := by
  rw [keysNodup, nodupB_eq] at h ⊢
  exact h.sublist (List.Sublist.map _ (List.filter_sublist m))

theorem pairwiseDisj_filter (L : List (Nat × Nat)) (q : Nat × Nat → Bool)
    (f : Nat × Nat → List Nat)
    (h : pairwiseDisj (L.map f) = true) :
    pairwiseDisj ((L.filter q).map f) = true := by
  rw [pairwiseDisj_iff, List.pairwise_map] at h ⊢
  exact h.sublist (List.filter_sublist L)

/-- The countP-uniqueness of the entry mapping to `lid`, derived from key
uniqueness and price injectivity of a structurally well-formed book. -/
theorem lookup_countP_le_one {ob : OrderBook} {ql : Nat → List Nat}
    {pr lid : Nat} (hwf : bookWfS ob ql = true)
    (hplk : mapGet ob.limits_lookup_map pr = some lid) :
    ob.limits_lookup_map.countP (fun e => e.2 == lid) ≤ 1 := by
  obtain ⟨lim, hlim, hprice, -⟩ := bookWfS_level hwf hplk
  have hw := hwf
  rw [bookWfS_iff] at hw
  refine countP_le_one_of_keys pr hw.1 ?_
  intro e he hpe
  have := hw.2.1 e he
  rw [levelOkS_iff] at this
  obtain ⟨lime, hgete, hpe2, -⟩ := this
  have helid : e.2 = lid := by simpa using hpe
  rw [helid, hlim] at hgete
  injection hgete with hgete
  subst hgete
  rw [← hpe2, hprice]

/-- Any entry whose value is `lid` is keyed by that level's own price. -/
theorem lookup_key_of_val {ob : OrderBook} {ql : Nat → List Nat}
    {lid : Nat} {lim : Limit} (hwf : bookWfS ob ql = true)
    (hlim : mapGet ob.limits_ownership_map lid = some lim) :
    ∀ e ∈ ob.limits_lookup_map, e.2 = lid → e.1 = lim.limit_price := by
  intro e he helid
  have hw := hwf
  rw [bookWfS_iff] at hw
  have := hw.2.1 e he
  rw [levelOkS_iff] at this
  obtain ⟨lime, hgete, hpe2, -⟩ := this
  rw [helid, hlim] at hgete
  injection hgete with hgete
  subst hgete
  rw [← hpe2]

theorem sharesOf_frame_of_get {X orders : List (Nat × Order)} {j : Nat}
    (h : mapGet X j = mapGet orders j) : sharesOf X j = sharesOf orders j := by
  rw [sharesOf, sharesOf, h]

/-- Replace level `lid`'s record and queue, leaving every other level's
queue untouched: full well-formedness is preserved. -/
theorem bookWfA_update_level
    (ob : OrderBook) (ql : Nat → List Nat) (lid pr : Nat) (lim lim1 : Limit)
    (X : List (Nat × Order)) (newl : List Nat)
    (hwfA : bookWfA ob ql = true)
    (hplk : mapGet ob.limits_lookup_map pr = some lid)
    (hlim : mapGet ob.limits_ownership_map lid = some lim)
    (hp1 : lim1.limit_price = lim.limit_price)
    (hframe : ∀ j, j ∉ ql lid → mapGet X j = mapGet ob.orders_ownership_map j)
    (hsub : ∀ x ∈ newl, x ∈ ql lid)
    (hwfq1 : wfQueue X lim1 newl = true)
    (hagg1 : aggOk X lim1 newl = true) :
    bookWfA
      { ob with
          orders_ownership_map := X
          limits_ownership_map := mapInsert ob.limits_ownership_map lid lim1 }
      (fun x => if x = lid then newl else ql x) = true := by
  have hwfS := ((bookWfA_iff _ _).mp hwfA).1
  have hallA := ((bookWfA_iff _ _).mp hwfA).2
  have hw := hwfS
  rw [bookWfS_iff] at hw
  obtain ⟨hknd, hall, hpd⟩ := hw
  have he0mem : (pr, lid) ∈ ob.limits_lookup_map := mapGet_mem hplk
  have hcnt := lookup_countP_le_one hwfS hplk
  -- frames for the untouched levels
  have hother : ∀ e ∈ ob.limits_lookup_map, e.2 ≠ lid →
      ∀ j ∈ ql e.2, mapGet X j = mapGet ob.orders_ownership_map j := by
    intro e he hne j hj
    refine hframe j ?_
    intro hcon
    have hne2 : e ≠ (pr, lid) := fun hc => hne (by rw [hc])
    have hd := pairwiseDisj_get hpd he he0mem hne2
    rw [disjointB_iff] at hd
    exact hd j hj hcon
  rw [bookWfA_iff]
  constructor
  · rw [bookWfS_iff]
    refine ⟨hknd, ?_, ?_⟩
    · intro e he
      rw [levelOkS_iff]
      by_cases helid : e.2 = lid
      · refine ⟨lim1, ?_, ?_, ?_⟩
        · show mapGet (mapInsert ob.limits_ownership_map lid lim1) e.2 = some lim1
          rw [helid]
          exact mapGet_insert_self _ _ _
        · rw [hp1, lookup_key_of_val hwfS hlim e he helid]
        · simp only [helid, if_pos rfl]
          exact hwfq1
      · have hthis := hall e he
        rw [levelOkS_iff] at hthis
        obtain ⟨lime, hge, hpe, hwfe⟩ := hthis
        refine ⟨lime, ?_, hpe, ?_⟩
        · show mapGet (mapInsert ob.limits_ownership_map lid lim1) e.2 = some lime
          rw [mapGet_insert_ne _ _ _ _ helid]
          exact hge
        · simp only [if_neg helid]
          exact wfQueue_frame (hother e he helid) hwfe
    · exact pairwiseDisj_shrink _ ql lid newl hpd hsub hcnt
  · intro e he
    rw [levelOkA_iff]
    by_cases helid : e.2 = lid
    · refine ⟨lim1, ?_, ?_⟩
      · show mapGet (mapInsert ob.limits_ownership_map lid lim1) e.2 = some lim1
        rw [helid]
        exact mapGet_insert_self _ _ _
      · simp only [helid, if_pos rfl]
        exact hagg1
    · have hthis := hallA e he
      rw [levelOkA_iff] at hthis
      obtain ⟨lime, hge, hagge⟩ := hthis
      refine ⟨lime, ?_, ?_⟩
      · show mapGet (mapInsert ob.limits_ownership_map lid lim1) e.2 = some lime
        rw [mapGet_insert_ne _ _ _ _ helid]
        exact hge
      · simp only [if_neg helid]
        rw [aggOk_iff] at hagge ⊢
        refine ⟨?_, hagge.2.1, hagge.2.2.1, hagge.2.2.2.1, hagge.2.2.2.2⟩
        rw [hagge.1]
        exact sumShares_congr
          (fun j hj => (sharesOf_frame_of_get (hother e he helid j hj)).symm)

/-- Remove level `lid` (emptied queue) from the level arena and the lookup
map, leaving every other level's queue untouched: full well-formedness is
preserved. -/
theorem bookWfA_delete_level
    (ob : OrderBook) (ql : Nat → List Nat) (lid : Nat) (lim : Limit)
    (X : List (Nat × Order))
    (hwfA : bookWfA ob ql = true)
    (hplk : mapGet ob.limits_lookup_map lim.limit_price = some lid)
    (hlim : mapGet ob.limits_ownership_map lid = some lim)
    (hframe : ∀ j, j ∉ ql lid → mapGet X j = mapGet ob.orders_ownership_map j) :
    bookWfA
      { ob with
          orders_ownership_map := X
          limits_ownership_map := mapErase ob.limits_ownership_map lid
          limits_lookup_map := mapErase ob.limits_lookup_map lim.limit_price }
      ql = true := by
  have hwfS := ((bookWfA_iff _ _).mp hwfA).1
  have hallA := ((bookWfA_iff _ _).mp hwfA).2
  have hw := hwfS
  rw [bookWfS_iff] at hw
  obtain ⟨hknd, hall, hpd⟩ := hw
  have he0mem : (lim.limit_price, lid) ∈ ob.limits_lookup_map := mapGet_mem hplk
  have hkeys := lookup_key_of_val hwfS hlim
  have hmem_of_mem : ∀ e ∈ mapErase ob.limits_lookup_map lim.limit_price,
      e ∈ ob.limits_lookup_map ∧ e.2 ≠ lid := by
    intro e he
    rw [mapErase, List.mem_filter] at he
    have h1 : e.1 ≠ lim.limit_price := by simpa using he.2
    refine ⟨he.1, ?_⟩
    intro hcon
    exact h1 (hkeys e he.1 hcon)
  have hother : ∀ e ∈ ob.limits_lookup_map, e.2 ≠ lid →
      ∀ j ∈ ql e.2, mapGet X j = mapGet ob.orders_ownership_map j := by
    intro e he hne j hj
    refine hframe j ?_
    intro hcon
    have hne2 : e ≠ (lim.limit_price, lid) := fun hc => hne (by rw [hc])
    have hd := pairwiseDisj_get hpd he he0mem hne2
    rw [disjointB_iff] at hd
    exact hd j hj hcon
  rw [bookWfA_iff]
  constructor
  · rw [bookWfS_iff]
    refine ⟨keysNodup_erase _ _ hknd, ?_, ?_⟩
    · intro e he
      obtain ⟨hemem, hne⟩ := hmem_of_mem e he
      have hthis := hall e hemem
      rw [levelOkS_iff] at hthis
      obtain ⟨lime, hge, hpe, hwfe⟩ := hthis
      rw [levelOkS_iff]
      refine ⟨lime, ?_, hpe, wfQueue_frame (hother e hemem hne) hwfe⟩
      show mapGet (mapErase ob.limits_ownership_map lid) e.2 = some lime
      rw [mapGet_erase, if_neg hne]
      exact hge
    · exact pairwiseDisj_filter _ _ _ hpd
  · intro e he
    obtain ⟨hemem, hne⟩ := hmem_of_mem e he
    have hthis := hallA e hemem
    rw [levelOkA_iff] at hthis
    obtain ⟨lime, hge, hagge⟩ := hthis
    rw [levelOkA_iff]
    refine ⟨lime, ?_, ?_⟩
    · show mapGet (mapErase ob.limits_ownership_map lid) e.2 = some lime
      rw [mapGet_erase, if_neg hne]
      exact hge
    · rw [aggOk_iff] at hagge ⊢
      refine ⟨?_, hagge.2.1, hagge.2.2.1, hagge.2.2.2.1, hagge.2.2.2.2⟩
      rw [hagge.1]
      exact sumShares_congr
        (fun j hj => (sharesOf_frame_of_get (hother e hemem hne j hj)).symm)

theorem bookWfA_congr (book : OrderBook) (f g : Nat → List Nat)
    (hfg : ∀ e ∈ book.limits_lookup_map, f e.2 = g e.2)
    (h : bookWfA book f = true) : bookWfA book g = true := by
  rw [bookWfA_iff, bookWfS_iff] at h ⊢
  obtain ⟨⟨hknd, hall, hpd⟩, hallA⟩ := h
  refine ⟨⟨hknd, ?_, ?_⟩, ?_⟩
  · intro e he
    have := hall e he
    rw [levelOkS_iff] at this ⊢
    obtain ⟨lime, hge, hpe, hwfe⟩ := this
    exact ⟨lime, hge, hpe, by rw [← hfg e he]; exact hwfe⟩
  · have : book.limits_lookup_map.map (fun e => g e.2) =
        book.limits_lookup_map.map (fun e => f e.2) :=
      List.map_congr_left (fun e he => (hfg e he).symm)
    rw [this]
    exact hpd
  · intro e he
    have := hallA e he
    rw [levelOkA_iff] at this ⊢
    obtain ⟨lime, hge, hagge⟩ := this
    exact ⟨lime, hge, by rw [← hfg e he]; exact hagge⟩

/-- One matching pass against the level at a registered price: the drain
(plus the level deletion its signal demands) preserves full
well-formedness; the level's queue becomes a prefix of its old id list. -/
theorem apply_drain_bookWfA
    (ob : OrderBook) (ql : Nat → List Nat) (lid pr s : Nat)
    (hwfA : bookWfA ob ql = true)
    (hplk : mapGet ob.limits_lookup_map pr = some lid) :
    ∃ ob2 m, apply_drain ob lid s = some ob2 ∧
      bookWfA ob2 (fun x => if x = lid then (ql lid).take m else ql x) = true := by
  have hwfS := ((bookWfA_iff _ _).mp hwfA).1
  obtain ⟨lim, hlim, hprice, hwfq⟩ := bookWfS_level hwfS hplk
  have hagg : aggOk ob.orders_ownership_map lim (ql lid) = true := by
    have := ((bookWfA_iff _ _).mp hwfA).2 (pr, lid) (mapGet_mem hplk)
    rw [levelOkA_iff] at this
    obtain ⟨lime, hge, hagge⟩ := this
    rw [hlim] at hge
    injection hge with hge
    subst hge
    exact hagge
  have hcount : lim.order_count = (ql lid).length := ((wfQueue_iff _ _ _).mp hwfq).2.2.2
  have hlw : (ql lid).length < W64 := by
    have := ((aggOk_iff _ _ _).mp hagg).2.2.2.2
    rw [hcount] at this
    exact this
  obtain ⟨orders3, lim3, s3, fills, m, heq, hm, hwf3, -, hframe3, hprice3, hagg3⟩ :=
    drain_go_spec lim.order_count ob.orders_ownership_map lim (ql lid) s hwfq
      (le_of_eq hcount.symm) hlw
  by_cases hflag : lim3.head_order = none
  · -- the queue emptied: the level is deleted
    have hb : (lim3.head_order == none) = true := by simp [hflag]
    have htake : (ql lid).take m = [] := by
      have hch := ((wfQueue_iff _ _ _).mp hwf3).1
      cases htm : (ql lid).take m with
      | nil => rfl
      | cons i rest =>
        rw [htm, chainSeg_cons_iff] at hch
        rw [hflag] at hch
        exact absurd hch.1 (by simp)
    refine ⟨{ ob with
        orders_ownership_map := orders3
        limits_ownership_map := mapErase ob.limits_ownership_map lid
        limits_lookup_map := mapErase ob.limits_lookup_map lim.limit_price },
      m, ?_, ?_⟩
    · simp [apply_drain, hlim, drain_limit, heq, hb]
    · have hdel := bookWfA_delete_level ob ql lid lim orders3 hwfA
        (by rw [hprice]; exact hplk) hlim hframe3
      refine bookWfA_congr _ ql _ ?_ hdel
      intro e he
      have hne : e.2 ≠ lid := by
        intro hcon
        have hemem2 := he
        simp only [mapErase, List.mem_filter] at hemem2
        have h1 : e.1 ≠ lim.limit_price := by simpa using hemem2.2
        exact h1 (lookup_key_of_val hwfS hlim e hemem2.1 hcon)
      rw [if_neg hne]
  · -- the level keeps resting volume
    have hb : (lim3.head_order == none) = false := by simpa using hflag
    refine ⟨{ ob with
        orders_ownership_map := orders3
        limits_ownership_map := mapInsert ob.limits_ownership_map lid lim3 },
      m, ?_, ?_⟩
    · simp [apply_drain, hlim, drain_limit, heq, hb]
    · exact bookWfA_update_level ob ql lid pr lim lim3 orders3 ((ql lid).take m)
        hwfA hplk hlim hprice3 hframe3 (fun x hx => List.take_subset _ _ hx)
        hwf3 (hagg3 hagg)

/-- Aggregate step when one order is spliced out of a queue (the cancel
path): `size`, `total_vol` and `order_count` are decremented exactly. -/
theorem aggOk_splice {orders X : List (Nat × Order)} {lim lim1 : Limit}
    {l1 l2 : List Nat} {oid : Nat} {o : Order}
    (hagg : aggOk orders lim (l1 ++ oid :: l2) = true)
    (hget : mapGet orders oid = some o)
    (hshframe : ∀ j ∈ l1 ++ l2, sharesOf X j = sharesOf orders j)
    (h1s : lim1.size = sub64 lim.size o.shares)
    (h1v : lim1.total_vol = sub64 lim.total_vol (mul64 o.shares lim.limit_price))
    (h1p : lim1.limit_price = lim.limit_price)
    (h1c : lim1.order_count = sub64 lim.order_count 1) :
    aggOk X lim1 (l1 ++ l2) = true := by
  rw [aggOk_iff] at hagg ⊢
  obtain ⟨has, hav, hbs, hbv, hbc⟩ := hagg
  have hmid : sumShares orders (oid :: l2) = o.shares + sumShares orders l2 := by
    simp [sumShares, sharesOf_eq hget]
  have hsum : sumShares orders (l1 ++ oid :: l2) =
      sumShares orders l1 + o.shares + sumShares orders l2 := by
    rw [sumShares_append, hmid]
    omega
  have hole : o.shares ≤ lim.size := by
    rw [has, hsum]
    omega
  have hmle : o.shares * lim.limit_price ≤ lim.total_vol := by
    rw [hav, Nat.mul_comm lim.limit_price lim.size]
    exact Nat.mul_le_mul_right _ hole
  have hmul : o.shares * lim.limit_price < W64 := lt_of_le_of_lt hmle hbv
  have hsize1 : lim1.size = lim.size - o.shares := by
    rw [h1s, sub64_eq hole hbs]
  have hvol1 : lim1.total_vol = lim.total_vol - o.shares * lim.limit_price := by
    rw [h1v, mul64_eq hmul, sub64_eq hmle hbv]
  refine ⟨?_, ?_, ?_, ?_, ?_⟩
  · rw [hsize1, sumShares_congr hshframe, sumShares_append, has, hsum]
    omega
  · rw [hvol1, hsize1, h1p, hav, nat_mul_sub, Nat.mul_comm lim.limit_price o.shares]
  · rw [hsize1]
    omega
  · rw [hvol1]
    omega
  · rw [h1c]
    exact sub64_lt _ _

/-- Cancelling a live order splices it out of its level's queue in O(1)
using its own prev/next pointers, fixing the level's endpoints and
decrementing the aggregates; full well-formedness is preserved with the
order removed from its queue (the level itself is removed when the queue
empties, here the `newHead = none` branch). -/
theorem cancel_order_bookWfA
    (ob : OrderBook) (ql : Nat → List Nat) (oid pr lid : Nat) (o : Order)
    (l1 l2 : List Nat)
    (hwfA : bookWfA ob ql = true)
    (hget : mapGet ob.orders_ownership_map oid = some o)
    (hpar : o.parent_limit = some lid)
    (hlk : mapGet ob.limits_lookup_map pr = some lid)
    (hsplit : ql lid = l1 ++ oid :: l2) :
    ∃ ob2, cancel_order ob oid = some ob2 ∧
      bookWfA ob2 (fun x => if x = lid then l1 ++ l2 else ql x) = true := by
  have hwfS := ((bookWfA_iff _ _).mp hwfA).1
  obtain ⟨lim, hlim, hprice, hwfq⟩ := bookWfS_level hwfS hlk
  have hagg : aggOk ob.orders_ownership_map lim (ql lid) = true := by
    have hA := ((bookWfA_iff _ _).mp hwfA).2 (pr, lid) (mapGet_mem hlk)
    rw [levelOkA_iff] at hA
    obtain ⟨lime, hge, hagge⟩ := hA
    rw [hlim] at hge
    injection hge with hge
    subst hge
    exact hagge
  rw [wfQueue_iff, hsplit] at hwfq
  obtain ⟨hch, htl, hnd, hcnt⟩ := hwfq
  rw [hsplit] at hagg
  have hbc : lim.order_count < W64 := ((aggOk_iff _ _ _).mp hagg).2.2.2.2
  have hndL : (l1 ++ oid :: l2).Nodup := (nodupB_eq _).mp hnd
  have hndP := hndL
  rw [List.nodup_append] at hndP
  obtain ⟨hnd1, hndc, hdisj⟩ := hndP
  have hnd2 : l2.Nodup := (List.nodup_cons.mp hndc).2
  have hoid_l2 : oid ∉ l2 := (List.nodup_cons.mp hndc).1
  have hoid_l1 : oid ∉ l1 := fun hmem => hdisj hmem (List.mem_cons_self _ _)
  obtain ⟨hc1, hc2⟩ :=
    (chainSeg_append _ l1 (oid :: l2) none lim.head_order none).mp hch
  rw [chainSeg_cons_iff] at hc2
  obtain ⟨-, o', hgeto', hoprev, hcrest⟩ := hc2
  rw [hget] at hgeto'
  injection hgeto' with hgeto'
  subst hgeto'
  have hql_oid : oid ∈ ql lid := by
    rw [hsplit]
    exact List.mem_append_right _ (List.mem_cons_self _ _)
  by_cases hl1e : l1 = []
  · subst hl1e
    have hoprevn : o.prev_order = none := by
      rw [hoprev]
      rfl
    by_cases hl2e : l2 = []
    · -- case 1: the cancelled order was alone; the emptied level is deleted
      subst hl2e
      have honextn : o.next_order = none := by
        rw [chainSeg_nil_iff] at hcrest
        exact hcrest
      refine ⟨{ ob with
          orders_ownership_map := mapErase ob.orders_ownership_map oid
          limits_ownership_map := mapErase ob.limits_ownership_map lid
          limits_lookup_map := mapErase ob.limits_lookup_map lim.limit_price },
        ?_, ?_⟩
      · simp [cancel_order, hget, hpar, hlim, hoprevn, honextn]
      · have hframe : ∀ j, j ∉ ql lid →
            mapGet (mapErase ob.orders_ownership_map oid) j =
            mapGet ob.orders_ownership_map j := by
          intro j hj
          have hjo : j ≠ oid := by
            intro hcon
            refine hj ?_
            rw [hcon]
            exact hql_oid
          rw [mapGet_erase, if_neg hjo]
        have hdel := bookWfA_delete_level ob ql lid lim
          (mapErase ob.orders_ownership_map oid) hwfA
          (by rw [hprice]; exact hlk) hlim hframe
        refine bookWfA_congr _ ql _ ?_ hdel
        intro e he
        have hne : e.2 ≠ lid := by
          intro hcon
          have hemem2 := he
          simp only [mapErase, List.mem_filter] at hemem2
          have h1 : e.1 ≠ lim.limit_price := by simpa using hemem2.2
          exact h1 (lookup_key_of_val hwfS hlim e hemem2.1 hcon)
        show ql e.2 = if e.2 = lid then [] ++ [] else ql e.2
        rw [if_neg hne]
    · -- case 2: the cancelled order was the head of a longer queue
      obtain ⟨n, t, hl2c⟩ : ∃ n t, l2 = n :: t := by
        cases l2 with
        | nil => exact absurd rfl hl2e
        | cons a b => exact ⟨a, b, rfl⟩
      subst hl2c
      have hcrest' := hcrest
      rw [chainSeg_cons_iff] at hcrest'
      obtain ⟨honexts, no, hgetn, -, -⟩ := hcrest'
      have hn_mem2 : n ∈ n :: t := List.mem_cons_self _ _
      have hn_ne : n ≠ oid := by
        intro hcon
        refine hoid_l2 ?_
        rw [← hcon]
        exact hn_mem2
      have hgetn1 : mapGet (mapErase ob.orders_ownership_map oid) n = some no := by
        rw [mapGet_erase, if_neg hn_ne]
        exact hgetn
      have hXn : mapGet (mapInsert (mapErase ob.orders_ownership_map oid) n
          { no with prev_order := none }) n =
          some { no with prev_order := none } := mapGet_insert_self _ _ _
      have hXframe : ∀ j, j ≠ oid → j ≠ n →
          mapGet (mapInsert (mapErase ob.orders_ownership_map oid) n
            { no with prev_order := none }) j =
          mapGet ob.orders_ownership_map j := by
        intro j hjo hjn
        rw [mapGet_insert_ne _ _ _ _ hjn, mapGet_erase, if_neg hjo]
      refine ⟨{ ob with
          orders_ownership_map :=
            mapInsert (mapErase ob.orders_ownership_map oid) n
              { no with prev_order := none }
          limits_ownership_map :=
            mapInsert ob.limits_ownership_map lid
              { lim with
                  head_order := some n
                  tail_order := lim.tail_order
                  order_count := sub64 lim.order_count 1
                  size := sub64 lim.size o.shares
                  total_vol := sub64 lim.total_vol (mul64 o.shares lim.limit_price) } },
        ?_, ?_⟩
      · simp [cancel_order, hget, hpar, hlim, hoprevn, honexts, hgetn1]
      · refine bookWfA_update_level ob ql lid pr lim _ _ _ hwfA hlk hlim ?_ ?_ ?_ ?_ ?_
        · rfl
        · intro j hj
          have hjo : j ≠ oid := by
            intro hcon
            refine hj ?_
            rw [hcon]
            exact hql_oid
          have hjn : j ≠ n := by
            intro hcon
            refine hj ?_
            rw [hsplit, hcon]
            exact List.mem_append_right _ (List.mem_cons_of_mem _ hn_mem2)
          exact hXframe j hjo hjn
        · intro x hx
          rw [hsplit]
          exact List.mem_append_right _ (List.mem_cons_of_mem _ hx)
        · rw [wfQueue_iff]
          refine ⟨?_, ?_, ?_, ?_⟩
          · have hc' : chainSeg (mapInsert (mapErase ob.orders_ownership_map oid) n
                { no with prev_order := none }) none o.next_order (n :: t) none =
                true := by
              refine chainSeg_reprev_first hcrest ?_ ?_ ((nodupB_eq _).mpr hnd2)
              · intro x xs hxe ox hox
                injection hxe with hx1 hx2
                subst hx1
                rw [hgetn] at hox
                injection hox with hox
                subst hox
                exact mapGet_insert_self _ _ _
              · intro j hj hjf
                have hjn : j ≠ n := hjf n t rfl
                have hjo : j ≠ oid := by
                  intro hcon
                  refine hoid_l2 ?_
                  rw [← hcon]
                  exact hj
                exact hXframe j hjo hjn
            rw [honexts] at hc'
            exact hc'
          · show lim.tail_order = ([] ++ n :: t).getLast?
            rw [htl]
            simp [List.getLast?_cons_cons]
          · exact (nodupB_eq _).mpr hnd2
          · show sub64 lim.order_count 1 = ([] ++ n :: t).length
            have hlen : (([] : List Nat) ++ oid :: n :: t).length =
                (([] : List Nat) ++ n :: t).length + 1 := by
              rw [List.length_append, List.length_append]
              simp only [List.length_cons]
              omega
            rw [hcnt, hlen, sub64_eq (by omega) (by rw [← hlen, ← hcnt]; exact hbc)]
            omega
        · refine aggOk_splice hagg hget ?_ rfl rfl rfl rfl
          intro j hj
          by_cases hjn : j = n
          · subst hjn
            rw [sharesOf_eq hgetn, sharesOf_eq hXn]
          · have hjo : j ≠ oid := by
              intro hcon
              refine hoid_l2 ?_
              rw [← hcon]
              exact hj
            exact sharesOf_frame_of_get (hXframe j hjo hjn)
  · -- the cancelled order had a predecessor: l1 is non-empty
    obtain ⟨po, hgetgl⟩ := chainSeg_mem_get (List.getLast_mem hl1e) hc1
    have hglmem : l1.getLast hl1e ∈ l1 := List.getLast_mem hl1e
    have hgl_ne : l1.getLast hl1e ≠ oid := by
      intro hcon
      exact hoid_l1 (hcon ▸ hglmem)
    have hoprevs : o.prev_order = some (l1.getLast hl1e) := by
      rw [hoprev, lastPtr_none_eq, List.getLast?_eq_getLast l1 hl1e]
    have hgetgl1 : mapGet (mapErase ob.orders_ownership_map oid)
        (l1.getLast hl1e) = some po := by
      rw [mapGet_erase, if_neg hgl_ne]
      exact hgetgl
    obtain ⟨x1, xs1, hl1c⟩ : ∃ x xs, l1 = x :: xs := by
      cases l1 with
      | nil => exact absurd rfl hl1e
      | cons a b => exact ⟨a, b, rfl⟩
    have hheadx : lim.head_order = some x1 := by
      have hc1' := hc1
      rw [hl1c, chainSeg_cons_iff] at hc1'
      exact hc1'.1
    by_cases hl2e : l2 = []
    · -- case 3: the cancelled order was the tail; l1 survives
      subst hl2e
      have honextn : o.next_order = none := by
        rw [chainSeg_nil_iff] at hcrest
        exact hcrest
      have hXgl : mapGet (mapInsert (mapErase ob.orders_ownership_map oid)
          (l1.getLast hl1e) { po with next_order := none }) (l1.getLast hl1e) =
          some { po with next_order := none } := mapGet_insert_self _ _ _
      have hXframe : ∀ j, j ≠ oid → j ≠ l1.getLast hl1e →
          mapGet (mapInsert (mapErase ob.orders_ownership_map oid)
            (l1.getLast hl1e) { po with next_order := none }) j =
          mapGet ob.orders_ownership_map j := by
        intro j hjo hjgl
        rw [mapGet_insert_ne _ _ _ _ hjgl, mapGet_erase, if_neg hjo]
      refine ⟨{ ob with
          orders_ownership_map :=
            mapInsert (mapErase ob.orders_ownership_map oid) (l1.getLast hl1e)
              { po with next_order := none }
          limits_ownership_map :=
            mapInsert ob.limits_ownership_map lid
              { lim with
                  head_order := lim.head_order
                  tail_order := some (l1.getLast hl1e)
                  order_count := sub64 lim.order_count 1
                  size := sub64 lim.size o.shares
                  total_vol := sub64 lim.total_vol (mul64 o.shares lim.limit_price) } },
        ?_, ?_⟩
      · simp [cancel_order, hget, hpar, hlim, hoprevs, honextn, hgetgl1, hheadx]
      · simp only [List.append_nil]
        refine bookWfA_update_level ob ql lid pr lim _ _ _ hwfA hlk hlim ?_ ?_ ?_ ?_ ?_
        · rfl
        · intro j hj
          have hjo : j ≠ oid := by
            intro hcon
            refine hj ?_
            rw [hcon]
            exact hql_oid
          have hjgl : j ≠ l1.getLast hl1e := by
            intro hcon
            refine hj ?_
            rw [hsplit, hcon]
            exact List.mem_append_left _ hglmem
          exact hXframe j hjo hjgl
        · intro x hx
          rw [hsplit]
          exact List.mem_append_left _ hx
        · rw [wfQueue_iff]
          refine ⟨?_, ?_, ?_, ?_⟩
          · refine chainSeg_retarget_last none l1 hl1e hc1
              ((nodupB_eq _).mpr hnd1) ?_ ?_
            · intro j hj hjgl
              have hjo : j ≠ oid := fun hcon => hoid_l1 (hcon ▸ hj)
              exact hXframe j hjo hjgl
            · intro po2 hpo2
              rw [hgetgl] at hpo2
              injection hpo2 with hpo2
              subst hpo2
              exact hXgl
          · show (some (l1.getLast hl1e) : Option Nat) = l1.getLast?
            rw [List.getLast?_eq_getLast l1 hl1e]
          · exact (nodupB_eq _).mpr hnd1
          · show sub64 lim.order_count 1 = l1.length
            have hlen : (l1 ++ oid :: ([] : List Nat)).length = l1.length + 1 := by
              rw [List.length_append]
              simp only [List.length_cons, List.length_nil]
            rw [hcnt, hlen, sub64_eq (by omega) (by rw [← hlen, ← hcnt]; exact hbc)]
            omega
        · have haux : ∀ (Y : List (Nat × Order)) (lm : Limit),
              aggOk Y lm (l1 ++ []) = true → aggOk Y lm l1 = true := by
            intro Y lm h
            rwa [List.append_nil] at h
          refine haux _ _ ?_
          refine aggOk_splice hagg hget ?_ rfl rfl rfl rfl
          intro j hj
          rw [List.append_nil] at hj
          by_cases hjgl : j = l1.getLast hl1e
          · subst hjgl
            rw [sharesOf_eq hgetgl, sharesOf_eq hXgl]
          · have hjo : j ≠ oid := fun hcon => hoid_l1 (hcon ▸ hj)
            exact sharesOf_frame_of_get (hXframe j hjo hjgl)
    · -- case 4: the cancelled order sat strictly inside the queue
      obtain ⟨n, t, hl2c⟩ : ∃ n t, l2 = n :: t := by
        cases l2 with
        | nil => exact absurd rfl hl2e
        | cons a b => exact ⟨a, b, rfl⟩
      subst hl2c
      have hcrest' := hcrest
      rw [chainSeg_cons_iff] at hcrest'
      obtain ⟨honexts, no, hgetn, -, -⟩ := hcrest'
      have hn_mem2 : n ∈ n :: t := List.mem_cons_self _ _
      have hn_ne : n ≠ oid := by
        intro hcon
        refine hoid_l2 ?_
        rw [← hcon]
        exact hn_mem2
      have hgl_n : l1.getLast hl1e ≠ n := by
        intro hcon
        refine hdisj hglmem ?_
        rw [hcon]
        exact List.mem_cons_of_mem _ hn_mem2
      have hn_gl : n ≠ l1.getLast hl1e := fun hcon => hgl_n hcon.symm
      have hgetn2 : mapGet (mapInsert (mapErase ob.orders_ownership_map oid)
          (l1.getLast hl1e) { po with next_order := some n }) n = some no := by
        rw [mapGet_insert_ne _ _ _ _ hn_gl, mapGet_erase, if_neg hn_ne]
        exact hgetn
      have hXgl : mapGet (mapInsert (mapInsert (mapErase ob.orders_ownership_map oid)
          (l1.getLast hl1e) { po with next_order := some n }) n
          { no with prev_order := some (l1.getLast hl1e) }) (l1.getLast hl1e) =
          some { po with next_order := some n } := by
        rw [mapGet_insert_ne _ _ _ _ hgl_n]
        exact mapGet_insert_self _ _ _
      have hXn : mapGet (mapInsert (mapInsert (mapErase ob.orders_ownership_map oid)
          (l1.getLast hl1e) { po with next_order := some n }) n
          { no with prev_order := some (l1.getLast hl1e) }) n =
          some { no with prev_order := some (l1.getLast hl1e) } :=
        mapGet_insert_self _ _ _
      have hXframe : ∀ j, j ≠ oid → j ≠ n → j ≠ l1.getLast hl1e →
          mapGet (mapInsert (mapInsert (mapErase ob.orders_ownership_map oid)
            (l1.getLast hl1e) { po with next_order := some n }) n
            { no with prev_order := some (l1.getLast hl1e) }) j =
          mapGet ob.orders_ownership_map j := by
        intro j hjo hjn hjgl
        rw [mapGet_insert_ne _ _ _ _ hjn, mapGet_insert_ne _ _ _ _ hjgl,
          mapGet_erase, if_neg hjo]
      refine ⟨{ ob with
          orders_ownership_map :=
            mapInsert (mapInsert (mapErase ob.orders_ownership_map oid)
              (l1.getLast hl1e) { po with next_order := some n }) n
              { no with prev_order := some (l1.getLast hl1e) }
          limits_ownership_map :=
            mapInsert ob.limits_ownership_map lid
              { lim with
                  head_order := lim.head_order
                  tail_order := lim.tail_order
                  order_count := sub64 lim.order_count 1
                  size := sub64 lim.size o.shares
                  total_vol := sub64 lim.total_vol (mul64 o.shares lim.limit_price) } },
        ?_, ?_⟩
      · simp [cancel_order, hget, hpar, hlim, hoprevs, honexts, hgetgl1,
          hgetn2, hheadx]
      · refine bookWfA_update_level ob ql lid pr lim _ _ _ hwfA hlk hlim ?_ ?_ ?_ ?_ ?_
        · rfl
        · intro j hj
          have hjo : j ≠ oid := by
            intro hcon
            refine hj ?_
            rw [hcon]
            exact hql_oid
          have hjn : j ≠ n := by
            intro hcon
            refine hj ?_
            rw [hsplit, hcon]
            exact List.mem_append_right _ (List.mem_cons_of_mem _ hn_mem2)
          have hjgl : j ≠ l1.getLast hl1e := by
            intro hcon
            refine hj ?_
            rw [hsplit, hcon]
            exact List.mem_append_left _ hglmem
          exact hXframe j hjo hjn hjgl
        · intro x hx
          rw [hsplit]
          rcases List.mem_append.mp hx with hx1 | hx1
          · exact List.mem_append_left _ hx1
          · exact List.mem_append_right _ (List.mem_cons_of_mem _ hx1)
        · rw [wfQueue_iff]
          refine ⟨?_, ?_, ?_, ?_⟩
          · refine (chainSeg_append _ l1 (n :: t) none lim.head_order none).mpr
              ⟨?_, ?_⟩
            · refine chainSeg_retarget_last (some n) l1 hl1e hc1
                ((nodupB_eq _).mpr hnd1) ?_ ?_
              · intro j hj hjgl
                have hjo : j ≠ oid := fun hcon => hoid_l1 (hcon ▸ hj)
                have hjn : j ≠ n := by
                  intro hcon
                  refine hdisj hj ?_
                  rw [hcon]
                  exact List.mem_cons_of_mem _ hn_mem2
                exact hXframe j hjo hjn hjgl
              · intro po2 hpo2
                rw [hgetgl] at hpo2
                injection hpo2 with hpo2
                subst hpo2
                exact hXgl
            · have hc2' : chainSeg (mapInsert (mapInsert
                  (mapErase ob.orders_ownership_map oid)
                  (l1.getLast hl1e) { po with next_order := some n }) n
                  { no with prev_order := some (l1.getLast hl1e) })
                  (some (l1.getLast hl1e)) o.next_order (n :: t) none = true := by
                refine chainSeg_reprev_first hcrest ?_ ?_ ((nodupB_eq _).mpr hnd2)
                · intro x xs hxe ox hox
                  injection hxe with hx1 hx2
                  subst hx1
                  rw [hgetn] at hox
                  injection hox with hox
                  subst hox
                  exact hXn
                · intro j hj hjf
                  have hjn : j ≠ n := hjf n t rfl
                  have hjo : j ≠ oid := by
                    intro hcon
                    refine hoid_l2 ?_
                    rw [← hcon]
                    exact hj
                  have hjgl : j ≠ l1.getLast hl1e := by
                    intro hcon
                    refine hdisj hglmem ?_
                    rw [← hcon]
                    exact List.mem_cons_of_mem _ hj
                  exact hXframe j hjo hjn hjgl
              rw [honexts] at hc2'
              have hlp : lastPtr none l1 = some (l1.getLast hl1e) := by
                rw [lastPtr_none_eq, List.getLast?_eq_getLast l1 hl1e]
              rw [hlp]
              exact hc2'
          · show lim.tail_order = (l1 ++ n :: t).getLast?
            rw [htl, List.getLast?_append_of_ne_nil l1 (List.cons_ne_nil oid (n :: t)),
              List.getLast?_append_of_ne_nil l1 (List.cons_ne_nil n t),
              List.getLast?_cons_cons]
          · show nodupB (l1 ++ n :: t) = true
            rw [nodupB_eq]
            exact hndL.sublist
              (List.Sublist.append_left (List.sublist_cons_self oid (n :: t)) l1)
          · show sub64 lim.order_count 1 = (l1 ++ n :: t).length
            have hlen : (l1 ++ oid :: n :: t).length = (l1 ++ n :: t).length + 1 := by
              rw [List.length_append, List.length_append]
              simp only [List.length_cons]
              omega
            rw [hcnt, hlen, sub64_eq (by omega) (by rw [← hlen, ← hcnt]; exact hbc)]
            omega
        · refine aggOk_splice hagg hget ?_ rfl rfl rfl rfl
          intro j hj
          by_cases hjgl : j = l1.getLast hl1e
          · subst hjgl
            rw [sharesOf_eq hgetgl, sharesOf_eq hXgl]
          · by_cases hjn : j = n
            · subst hjn
              rw [sharesOf_eq hgetn, sharesOf_eq hXn]
            · have hjo : j ≠ oid := by
                intro hcon
                rcases List.mem_append.mp hj with h1 | h1
                · exact hoid_l1 (hcon ▸ h1)
                · refine hoid_l2 ?_
                  rw [← hcon]
                  exact h1
              exact sharesOf_frame_of_get (hXframe j hjo hjn hjgl)

/-- Submitting a fresh order at a registered price preserves full
well-formedness — provided the level's running `size` and `total_vol`
updates stay below `2 ^ 64`.  The order joins the head of its level's
queue and the aggregates grow by exactly the order's contribution. -/
theorem add_order_bookWfA
    (ob : OrderBook) (ql : Nat → List Nat) (o : Order) (lid : Nat) (lim : Limit)
    (hwfA : bookWfA ob ql = true)
    (hlk : mapGet ob.limits_lookup_map o.limit = some lid)
    (hlim : mapGet ob.limits_ownership_map lid = some lim)
    (hfresh : mapGet ob.orders_ownership_map o.order_id = none)
    (hlen : (ql lid).length + 1 < W64)
    (hnos : lim.size + o.shares < W64)
    (hnov : lim.total_vol + o.shares * lim.limit_price < W64) :
    ∃ ob2, add_order ob o = some ob2 ∧
      bookWfA ob2 (fun x => if x = lid then o.order_id :: ql lid else ql x) = true := by
  have hwfS := ((bookWfA_iff _ _).mp hwfA).1
  obtain ⟨lim', hlim', hprice, hwfq⟩ := bookWfS_level hwfS hlk
  rw [hlim] at hlim'
  injection hlim' with hlim'
  subst hlim'
  have hagg : aggOk ob.orders_ownership_map lim (ql lid) = true := by
    have hA := ((bookWfA_iff _ _).mp hwfA).2 (o.limit, lid) (mapGet_mem hlk)
    rw [levelOkA_iff] at hA
    obtain ⟨lime, hge, hagge⟩ := hA
    rw [hlim] at hge
    injection hge with hge
    subst hge
    exact hagge
  obtain ⟨ob2, heq, hwfS2, hlkeq, -⟩ := add_order_bookWfS ob ql o lid hwfS hlk
    hfresh hlen
  obtain ⟨lim1, hlim1, h1h, h1t, h1c, h1s, h1v, h1p, hstore, hlkeq2, -, -,
    hlframe, hoframe, hheadupd⟩ := add_order_post ob o lid lim ob2 hlk hlim heq
  have hchains := fresh_not_in_chains hwfS hfresh
  have he0mem : (o.limit, lid) ∈ ob.limits_lookup_map := mapGet_mem hlk
  have hw := hwfS
  rw [bookWfS_iff] at hw
  obtain ⟨hknd, hall, hpd⟩ := hw
  refine ⟨ob2, heq, ?_⟩
  rw [bookWfA_iff]
  refine ⟨hwfS2, ?_⟩
  rw [hlkeq2]
  intro e he
  rw [levelOkA_iff]
  by_cases helid : e.2 = lid
  · refine ⟨lim1, by rw [helid]; exact hlim1, ?_⟩
    simp only [helid, if_pos rfl]
    refine aggOk_cons hagg hstore rfl ?_ h1s h1v h1c h1p hnos hnov
    intro j hj
    have hjoid : j ≠ o.order_id := by
      intro hcon
      exact hchains (o.limit, lid) he0mem (hcon ▸ hj)
    cases hh : lim.head_order with
    | none =>
      refine sharesOf_frame_of_get (hoframe j hjoid ?_)
      intro hid hhid
      rw [hh] at hhid
      cases hhid
    | some hid =>
      obtain ⟨ho, rest, hqleq, hgeth⟩ := wfQueue_head_record hwfq hh
      by_cases hjh : j = hid
      · subst hjh
        have hjne : j ≠ o.order_id := hjoid
        have hget2 := hheadupd j ho hh hjne hgeth
        rw [sharesOf_eq hgeth, sharesOf_eq hget2]
      · refine sharesOf_frame_of_get (hoframe j hjoid ?_)
        intro hid2 hhid2
        rw [hh] at hhid2
        injection hhid2 with hhid2
        subst hhid2
        exact hjh
  · have hthis := ((bookWfA_iff _ _).mp hwfA).2 e he
    rw [levelOkA_iff] at hthis
    obtain ⟨lime, hge, hagge⟩ := hthis
    refine ⟨lime, by rw [hlframe e.2 helid]; exact hge, ?_⟩
    simp only [if_neg helid]
    rw [aggOk_iff] at hagge ⊢
    refine ⟨?_, hagge.2.1, hagge.2.2.1, hagge.2.2.2.1, hagge.2.2.2.2⟩
    rw [hagge.1]
    refine (sumShares_congr ?_).symm
    intro j hj
    refine sharesOf_frame_of_get (hoframe j ?_ ?_)
    · intro hcon
      exact hchains e he (hcon ▸ hj)
    · intro hid hh hcon
      obtain ⟨ho, rest, hqleq, -⟩ := wfQueue_head_record hwfq hh
      have hne : e ≠ (o.limit, lid) := by
        intro hcon2
        exact helid (by rw [hcon2])
      have hd := pairwiseDisj_get hpd he he0mem hne
      rw [disjointB_iff] at hd
      exact hd j hj (by rw [hqleq]; exact hcon ▸ List.mem_cons_self _ _)

/-! ## Claim C2: level consistency across submit, cancel and match -/

/-- C2 counterexample to the unconditional claim: `ovBook` satisfies the
full invariant (`bookWfA`, which includes `total_vol = limit_price * size`
and `size = Σ shares`), yet after submitting `ovNew` — whose
`shares * price` product reaches `2 ^ 64` — the stored level at id 1 has
`total_vol ≠ limit_price * size`: the incremental update wrapped modulo
`2 ^ 64` and silently broke the consistency equation. -/
theorem c2_level_consistency_cex :
    bookWfA ovBook ovQl = true ∧
    (add_order ovBook ovNew).bind (fun b =>
      (mapGet b.limits_ownership_map 1).map (fun lm =>
        decide (lm.total_vol = lm.limit_price * lm.size))) = some false := by
  constructor
  · decide
  · decide

/-- C2 (amended): the level-consistency invariant — for every registered
level, `size = Σ shares` over its queue, `total_vol = limit_price * size`,
`order_count` = queue length, and emptied levels removed — is preserved by
every operation, **provided the incremental u64 updates do not overflow**
(they are computed modulo `2 ^ 64`): (1) submitting a fresh order at a
registered price, when the level's running `size`/`total_vol` updates stay
below `2 ^ 64`; (2) cancelling any resting order; (3) a matching drain
against a registered level (which deletes the level when its queue
empties). -/
theorem c2_level_consistency_preserved :
    (∀ (ob : OrderBook) (ql : Nat → List Nat) (o : Order) (lid : Nat) (lim : Limit),
      bookWfA ob ql = true →
      mapGet ob.limits_lookup_map o.limit = some lid →
      mapGet ob.limits_ownership_map lid = some lim →
      mapGet ob.orders_ownership_map o.order_id = none →
      (ql lid).length + 1 < W64 →
      lim.size + o.shares < W64 →
      lim.total_vol + o.shares * lim.limit_price < W64 →
      ∃ ob2, add_order ob o = some ob2 ∧
        bookWfA ob2 (fun x => if x = lid then o.order_id :: ql lid else ql x) = true) ∧
    (∀ (ob : OrderBook) (ql : Nat → List Nat) (oid pr lid : Nat) (o : Order)
        (l1 l2 : List Nat),
      bookWfA ob ql = true →
      mapGet ob.orders_ownership_map oid = some o →
      o.parent_limit = some lid →
      mapGet ob.limits_lookup_map pr = some lid →
      ql lid = l1 ++ oid :: l2 →
      ∃ ob2, cancel_order ob oid = some ob2 ∧
        bookWfA ob2 (fun x => if x = lid then l1 ++ l2 else ql x) = true) ∧
    (∀ (ob : OrderBook) (ql : Nat → List Nat) (lid pr s : Nat),
      bookWfA ob ql = true →
      mapGet ob.limits_lookup_map pr = some lid →
      ∃ ob2 m, apply_drain ob lid s = some ob2 ∧
        bookWfA ob2 (fun x => if x = lid then (ql lid).take m else ql x) = true) :=
  ⟨fun ob ql o lid lim h1 h2 h3 h4 h5 h6 h7 =>
      add_order_bookWfA ob ql o lid lim h1 h2 h3 h4 h5 h6 h7,
   fun ob ql oid pr lid o l1 l2 h1 h2 h3 h4 h5 =>
      cancel_order_bookWfA ob ql oid pr lid o l1 l2 h1 h2 h3 h4 h5,
   fun ob ql lid pr s h1 h2 => apply_drain_bookWfA ob ql lid pr s h1 h2⟩

/-- C2 witness: the submit clause of the preservation theorem applied to the
concrete well-formed book `demoBook` and the fresh in-range order
`demoNew`. -/
theorem c2_level_consistency_witness :
    ∃ ob2, add_order demoBook demoNew = some ob2 ∧
      bookWfA ob2
        (fun x => if x = 1 then demoNew.order_id :: demoQl 1 else demoQl x) = true :=
  c2_level_consistency_preserved.1 demoBook demoQl demoNew 1 demoLim
    (by decide) (by decide) (by decide) (by decide) (by decide) (by decide)
    (by decide)

/-- C1 witness: the FIFO theorem applied to the concrete book `demoBook`,
the batch `[demoNew]` and the registered price 100. -/
theorem c1_fifo_witness :
    ∃ ob2 lim2,
      submitAll demoBook [demoNew] = some ob2 ∧
      mapGet ob2.limits_ownership_map 1 = some lim2 ∧
      (qlSubmit demoBook.limits_lookup_map demoQl [demoNew] 1).reverse =
        (demoQl 1).reverse ++
          ([demoNew].filter (fun o =>
            mapGet demoBook.limits_lookup_map o.limit == some 1)).map
            Order.order_id ∧
      wfQueue ob2.orders_ownership_map lim2
        (qlSubmit demoBook.limits_lookup_map demoQl [demoNew] 1) = true ∧
      (∀ s, ∃ k,
        ((drain_limit ob2.orders_ownership_map lim2 s).2.2.2.2).map Prod.fst =
          ((qlSubmit demoBook.limits_lookup_map demoQl [demoNew] 1).reverse).take k) :=
  c1_fifo_within_level demoBook demoQl [demoNew] 100 1 (by decide) (by decide)
    (by decide)
    (by
      intro x
      have h1 : (demoQl x).length ≤ 1 := by
        by_cases hx : x = 1 <;> simp [demoQl, hx]
      rw [W64_eq]
      simp only [List.length_cons, List.length_nil]
      omega)
    (by decide)

/-- C9 witness: the round-trip theorem applied to the concrete book
`demoBook` and the fresh order `demoNew`: submitting then immediately
cancelling it returns exactly `demoBook`. -/
theorem c9_submit_cancel_witness :
    (add_order demoBook demoNew).bind
      (fun ob2 => cancel_order ob2 demoNew.order_id) = some demoBook :=
  c9_submit_cancel_roundtrip demoBook demoNew 1 demoLim 1 demoOrd (by decide)
    (by decide) (by decide) (by decide) (by decide) (by decide) (by decide)
    (by decide) (by decide)

end RustHFT
